import Mathlib

/-!
# Verification of the MLS gateway relay extension

Shallow embedding, in Lean 4, of the parts of the `rust-nostr-relay`
MLS-gateway source that the specification's claims are about:

* `src/extensions/src/mls_gateway/firestore.rs` — keypackage store operations
  (`delete_consumed_keypackage`, `count_user_keypackages`,
  `cleanup_expired_keypackages`), group registry (`upsert_group`,
  `add_admins`, `remove_admins`), and the roster/policy log
  (`get_last_roster_sequence`, `store_roster_policy`).
* `src/extensions/src/mls_gateway/mod.rs` — the kind-450 roster handler
  (`handle_roster_policy`) and the kind-443 keypackage handler
  (`handle_keypackage`).
* `src/extensions/src/mls_gateway/keypackage_encoding.rs` — hex/base64
  canonicalisation helpers.
* `src/extensions/src/nip_service/profiles/kr.rs` — the NIP-KR canonical MAC
  input builder.
* `src/extensions/src/nip_service/store.rs` — the in-memory rotation store
  (`prepare_rotation`, `record_ack`, `promote_rotation`).

Modelling conventions:

* Rust `&str`/`String` values are embedded as Lean `String` (or `List Char`
  for the character-level codecs); byte slices `&[u8]`/`Vec<u8>` as
  `List Nat` with every element `< 256`.
* `chrono::DateTime<Utc>` timestamps are embedded as `Int` (Unix seconds),
  `i64` as `Int`, `u64`/`u32`/`usize` as `Nat`.
* The Firestore collections are embedded as in-memory lists of documents,
  keyed by their document id exactly as the source keys them (keypackages by
  `event_id`, groups by `group_id`, roster docs by `(group_id, sequence)`).
  A document delete by id is a filter on that id.
* Fallible Rust functions returning `anyhow::Result` are embedded as
  `Except GatewayErr` (one constructor per distinct `anyhow!` message in the
  modelled paths); backend/transport failures are outside the model, so
  queries themselves always succeed, exactly as the happy path of the code.
* The asynchronous code is straight-line per call in the source (each
  modelled function awaits its own storage calls in order), so each function
  is embedded as a pure state-passing function; spawned background tasks
  (the last-resort timer) are outside the modelled handler return.
-/

/-! ## Basic helpers: Rust string primitives -/

/-- The Unicode White_Space code points, as used by Rust's `str::trim`
(`char::is_whitespace`). -/
def rustIsWhitespace (c : Char) : Bool :=
  c.toNat = 0x09 || c.toNat = 0x0A || c.toNat = 0x0B || c.toNat = 0x0C ||
  c.toNat = 0x0D || c.toNat = 0x20 || c.toNat = 0x85 || c.toNat = 0xA0 ||
  c.toNat = 0x1680 || (0x2000 ≤ c.toNat && c.toNat ≤ 0x200A) ||
  c.toNat = 0x2028 || c.toNat = 0x2029 || c.toNat = 0x202F ||
  c.toNat = 0x205F || c.toNat = 0x3000

/-- Rust `str::trim` on the character list: strip whitespace from both ends. -/
def rustTrim (s : List Char) : List Char :=
  ((s.dropWhile rustIsWhitespace).reverse.dropWhile rustIsWhitespace).reverse

/-- Rust `char::is_ascii_hexdigit`: `0-9`, `A-F` or `a-f`. -/
def isAsciiHexdigit (c : Char) : Bool :=
  ('0' ≤ c && c ≤ '9') || ('A' ≤ c && c ≤ 'F') || ('a' ≤ c && c ≤ 'f')

/-- One step of Rust decimal digit parsing. -/
def digitVal (c : Char) : Option Nat :=
  if '0' ≤ c && c ≤ '9' then some (c.toNat - '0'.toNat) else none

/-- Parse an unsigned decimal digit string (no sign handling). -/
def parseDigits : List Char → Option Nat
  | [] => none
  | cs => cs.foldlM (fun acc c => (digitVal c).map (fun d => acc * 10 + d)) 0

/-- Rust `str::parse::<u64>`: optional leading `+`, at least one digit,
value must fit in 64 bits. -/
def parseU64 (s : String) : Option Nat :=
  let cs := match s.data with
    | '+' :: rest => rest
    | cs => cs
  match parseDigits cs with
  | some n => if n < 2 ^ 64 then some n else none
  | none => none

/-- Rust `str::parse::<i64>`: optional sign, at least one digit, 64-bit
signed bounds. -/
def parseI64 (s : String) : Option Int :=
  match s.data with
  | '-' :: rest =>
    match parseDigits rest with
    | some n => if n ≤ 2 ^ 63 then some (-(n : Int)) else none
    | none => none
  | '+' :: rest =>
    match parseDigits rest with
    | some n => if n < 2 ^ 63 then some (n : Int) else none
    | none => none
  | cs =>
    match parseDigits cs with
    | some n => if n < 2 ^ 63 then some (n : Int) else none
    | none => none

/-- First value of the first tag whose name matches and that has at least two
entries: models `tags.iter().find(|t| t.len() >= 2 && t[0] == name).map(|t| t[1])`. -/
def firstTagValue (tags : List (List String)) (name : String) : Option String :=
  (tags.find? (fun t => 2 ≤ t.length && t.headD "" = name)).map (fun t => t.getD 1 "")

/-! ## Hex codec (the `hex` crate: `hex::encode`, `hex::decode`) -/

/-- Lowercase hex digit for a value `< 16` (`hex::encode` emits lowercase). -/
def hexDigitChar (n : Nat) : Char :=
  Char.ofNat (if n < 10 then 48 + n else 87 + n)

/-- `hex::encode`: each byte to two lowercase hex digits. -/
def hexEncode : List Nat → List Char
  | [] => []
  | b :: rest => hexDigitChar (b / 16) :: hexDigitChar (b % 16) :: hexEncode rest

/-- Value of a hex digit, both cases accepted (`hex::decode` accepts both). -/
def hexVal (c : Char) : Option Nat :=
  let n := c.toNat
  if 48 ≤ n && n ≤ 57 then some (n - 48)
  else if 97 ≤ n && n ≤ 102 then some (n - 87)
  else if 65 ≤ n && n ≤ 70 then some (n - 55)
  else none

/-- `hex::decode`: fails on odd length or a non-hex character. -/
def hexDecode : List Char → Option (List Nat)
  | [] => some []
  | [_] => none
  | c1 :: c2 :: rest => do
    let h ← hexVal c1
    let l ← hexVal c2
    let t ← hexDecode rest
    pure ((h * 16 + l) :: t)

/-- `hex::encode` of an event pubkey, as a Lean `String`
(`hex::encode(event.pubkey())` in `mod.rs`). -/
def hexS (bs : List Nat) : String := ⟨hexEncode bs⟩

/-! ## Base64 codec (the `base64` crate engines used by the source)

`keypackage_encoding.rs` uses the four `general_purpose` engines `STANDARD`,
`STANDARD_NO_PAD`, `URL_SAFE`, `URL_SAFE_NO_PAD` of the `base64` crate with
their default configs: padded engines require canonical padding on decode,
no-pad engines reject `=`, every engine rejects a length `≡ 1 (mod 4)` and
non-zero trailing bits. -/

/-- The standard base64 alphabet (RFC 4648 §4). -/
def stdAlphabet : List Char :=
  ['A','B','C','D','E','F','G','H','I','J','K','L','M','N','O','P',
   'Q','R','S','T','U','V','W','X','Y','Z','a','b','c','d','e','f',
   'g','h','i','j','k','l','m','n','o','p','q','r','s','t','u','v',
   'w','x','y','z','0','1','2','3','4','5','6','7','8','9','+','/']

/-- The URL-safe base64 alphabet (RFC 4648 §5). -/
def urlAlphabet : List Char :=
  ['A','B','C','D','E','F','G','H','I','J','K','L','M','N','O','P',
   'Q','R','S','T','U','V','W','X','Y','Z','a','b','c','d','e','f',
   'g','h','i','j','k','l','m','n','o','p','q','r','s','t','u','v',
   'w','x','y','z','0','1','2','3','4','5','6','7','8','9','-','_']

/-- Character for a 6-bit symbol. -/
def symChar (al : List Char) (n : Nat) : Char := al.getD n '?'

/-- 6-bit symbol for a character, `none` when not in the alphabet. -/
def symVal (al : List Char) (c : Char) : Option Nat :=
  let i := al.indexOf c
  if i < al.length then some i else none

/-- Base64 encode; `pad` selects the padded engines. -/
def encodeB64 (al : List Char) (pad : Bool) : List Nat → List Char
  | [] => []
  | [b1] =>
    symChar al (b1 / 4) :: symChar al (b1 % 4 * 16) :: (if pad then ['=', '='] else [])
  | [b1, b2] =>
    symChar al (b1 / 4) :: symChar al (b1 % 4 * 16 + b2 / 16) ::
      symChar al (b2 % 16 * 4) :: (if pad then ['='] else [])
  | b1 :: b2 :: b3 :: rest =>
    symChar al (b1 / 4) :: symChar al (b1 % 4 * 16 + b2 / 16) ::
      symChar al (b2 % 16 * 4 + b3 / 64) :: symChar al (b3 % 64) ::
      encodeB64 al pad rest

/-- Decode a final group of two symbols (one byte); trailing bits must be 0. -/
def decodePair (al : List Char) (c1 c2 : Char) : Option (List Nat) := do
  let s1 ← symVal al c1
  let s2 ← symVal al c2
  if s2 % 16 = 0 then pure [s1 * 4 + s2 / 16] else none

/-- Decode a final group of three symbols (two bytes); trailing bits must be 0. -/
def decodeTrio (al : List Char) (c1 c2 c3 : Char) : Option (List Nat) := do
  let s1 ← symVal al c1
  let s2 ← symVal al c2
  let s3 ← symVal al c3
  if s3 % 4 = 0 then pure [s1 * 4 + s2 / 16, s2 % 16 * 16 + s3 / 4] else none

/-- Decode a full group of four symbols (three bytes). -/
def decodeQuad (al : List Char) (c1 c2 c3 c4 : Char) : Option (List Nat) := do
  let s1 ← symVal al c1
  let s2 ← symVal al c2
  let s3 ← symVal al c3
  let s4 ← symVal al c4
  pure [s1 * 4 + s2 / 16, s2 % 16 * 16 + s3 / 4, s3 % 4 * 64 + s4]

/-- Decode in a no-padding engine (`STANDARD_NO_PAD` / `URL_SAFE_NO_PAD`):
`=` is not in the alphabet so it is rejected, length `≡ 1 (mod 4)` is
rejected, trailing bits must be zero. -/
def decodeNoPad (al : List Char) : List Char → Option (List Nat)
  | [] => some []
  | [_] => none
  | [c1, c2] => decodePair al c1 c2
  | [c1, c2, c3] => decodeTrio al c1 c2 c3
  | c1 :: c2 :: c3 :: c4 :: rest => do
    let h ← decodeQuad al c1 c2 c3 c4
    let t ← decodeNoPad al rest
    pure (h ++ t)

/-- Decode in a padded engine (`STANDARD` / `URL_SAFE`) requiring canonical
padding: total length a multiple of 4, `=` only as the last one or two
characters, trailing bits zero. -/
def decodePadded (al : List Char) : List Char → Option (List Nat)
  | [] => some []
  | c1 :: c2 :: c3 :: c4 :: rest =>
    match rest with
    | [] =>
      if c4 = '=' then
        if c3 = '=' then decodePair al c1 c2 else decodeTrio al c1 c2 c3
      else decodeQuad al c1 c2 c3 c4
    | _ :: _ => do
      let h ← decodeQuad al c1 c2 c3 c4
      let t ← decodePadded al rest
      pure (h ++ t)
  | _ => none

/-- `decode_base64_flexible`: try `STANDARD`, `STANDARD_NO_PAD`, `URL_SAFE`,
`URL_SAFE_NO_PAD` in that order (`keypackage_encoding.rs`). -/
def decodeBase64Flexible (cs : List Char) : Option (List Nat) :=
  match decodePadded stdAlphabet cs with
  | some b => some b
  | none =>
    match decodeNoPad stdAlphabet cs with
    | some b => some b
    | none =>
      match decodePadded urlAlphabet cs with
      | some b => some b
      | none => decodeNoPad urlAlphabet cs

/-! ## Keypackage content encoding (`keypackage_encoding.rs`) -/

/-- Gateway error values; one constructor per distinct `anyhow!`/`bail!`
message in the modelled code paths. -/
inductive GatewayErr where
  | unsupportedEncoding (other : String)
  | emptyKeypackageContent
  | hexDecodeFailed
  | base64DecodeFailed
  | emptyFirestoreContent
  | missingGroupId
  | missingOperation
  | bootstrapRequired
  | unauthorizedRoster
  | missingOrInvalidSeq
  | invalidOperation (op : String)
  | staleSequence
  | storeInvalidSequence (seq last : Nat)
  | ownerMismatch
  | keypackageExpired
  | invalidContent
  | quotaExceeded
  | keypackageInsertExists
  deriving Repr, DecidableEq

/-- `DeclaredEncoding` in `keypackage_encoding.rs`. -/
inductive DeclaredEncoding where
  | hex
  | base64
  deriving Repr, DecidableEq

/-- Rust `str::to_lowercase`, modelled on the ASCII range (no Unicode
lowercase mapping produces an ASCII letter of the compared literals, so the
comparisons below are unaffected). -/
def rustToLowercase (s : String) : String :=
  ⟨s.data.map (fun c => if 'A' ≤ c && c ≤ 'Z' then Char.ofNat (c.toNat + 32) else c)⟩

/-- `declared_encoding_from_tags`: missing `encoding` tag means hex;
`base64`/`hex` (case-insensitive) are accepted; anything else fails. -/
def declaredEncodingFromTags (tags : List (List String)) :
    Except GatewayErr DeclaredEncoding :=
  match (firstTagValue tags "encoding").map rustToLowercase with
  | some "base64" => .ok .base64
  | some "hex" => .ok .hex
  | some other => .error (.unsupportedEncoding other)
  | none => .ok .hex

/-- `decode_hex` in `keypackage_encoding.rs`. -/
def decodeHexE (s : List Char) : Except GatewayErr (List Nat) :=
  match hexDecode s with
  | some b => .ok b
  | none => .error .hexDecodeFailed

/-- `decode_keypackage_content`: trim, reject empty, then decode according to
the declared encoding. -/
def decodeKeypackageContent (content : String) (enc : DeclaredEncoding) :
    Except GatewayErr (List Nat) :=
  let c := rustTrim content.data
  if c.isEmpty then .error .emptyKeypackageContent
  else
    match enc with
    | .hex => decodeHexE c
    | .base64 =>
      match decodeBase64Flexible c with
      | some b => .ok b
      | none => .error .base64DecodeFailed

/-- `encode_canonical_base64`: standard base64 with padding. -/
def encodeCanonicalBase64 (bs : List Nat) : String :=
  ⟨encodeB64 stdAlphabet true bs⟩

/-- `encode_hex`. -/
def encodeHexS (bs : List Nat) : String := ⟨hexEncode bs⟩

/-- `canonical_base64_from_event`: declared encoding from the tags, decode the
content, re-encode canonically. -/
def canonicalBase64FromEvent (tags : List (List String)) (content : String) :
    Except GatewayErr (DeclaredEncoding × String) := do
  let declared ← declaredEncodingFromTags tags
  let bytes ← decodeKeypackageContent content declared
  pure (declared, encodeCanonicalBase64 bytes)

/-- `bytes_from_firestore_content`: trim, reject empty, try flexible base64,
fall back to hex. -/
def bytesFromFirestoreContent (content : String) : Except GatewayErr (List Nat) :=
  let c := rustTrim content.data
  if c.isEmpty then .error .emptyFirestoreContent
  else
    match decodeBase64Flexible c with
    | some b => .ok b
    | none => decodeHexE c

/-- `hex_from_firestore_content`. -/
def hexFromFirestoreContent (content : String) : Except GatewayErr String :=
  (bytesFromFirestoreContent content).map encodeHexS

/-! ## Keypackage store (`firestore.rs`, collection `mls_keypackages`)

The collection is a list of `KeyPackageDoc`s keyed by `event_id`
(`document_id(event_id)` on every write). -/

/-- `KeyPackageDoc` in `firestore.rs`. -/
structure KeyPackageDoc where
  event_id : String
  owner_pubkey : String
  content : String
  ciphersuite : String
  extensions : List String
  relays : List String
  created_at : Int
  expires_at : Int
  deriving Repr, DecidableEq

/-- `count_user_keypackages`: documents of this owner with
`expires_at > now`. -/
def countUserKeypackages (store : List KeyPackageDoc) (owner : String) (now : Int) : Nat :=
  (store.filter (fun d => d.owner_pubkey = owner && now < d.expires_at)).length

/-- `delete_consumed_keypackage`: load the document (query by `event_id`,
limit 1), count the owner's non-expired keypackages, preserve the record when
the count is ≤ 1, otherwise delete it by document id.  Returns the boolean
result and the updated collection; an unknown id yields `(false, store)`,
matching the final `Ok(false)`. -/
def deleteConsumedKeypackage (store : List KeyPackageDoc) (now : Int) (event_id : String) :
    Bool × List KeyPackageDoc :=
  match store.find? (fun d => d.event_id = event_id) with
  | none => (false, store)
  | some kp =>
    let count := countUserKeypackages store kp.owner_pubkey now
    if count ≤ 1 then (false, store)
    else (true, store.filter (fun d => d.event_id ≠ event_id))

/-- Expired documents of the store (`expires_at <= now`), in query order. -/
def expiredDocs (store : List KeyPackageDoc) (now : Int) : List KeyPackageDoc :=
  store.filter (fun d => d.expires_at ≤ now)

/-- The expired event ids of one owner, from the initial expired query
(the `expired_by_owner` entry for that owner). -/
def expiredIdsOf (store : List KeyPackageDoc) (now : Int) (owner : String) : List String :=
  ((expiredDocs store now).filter (fun d => d.owner_pubkey = owner)).map (·.event_id)

/-- Process one owner of `cleanup_expired_keypackages`: recount the owner's
valid keypackages on the live store, delete all expired ones if the valid
count exceeds the expired count, otherwise all but one.  The deletes walk the
owner's expired ids in order and stop at `deletable_count`
(`if i < deletable_count`). -/
def cleanupOwner (orig : List KeyPackageDoc) (now : Int) (owner : String)
    (acc : Nat × List KeyPackageDoc) : Nat × List KeyPackageDoc :=
  let expired_ids := expiredIdsOf orig now owner
  let total_count := countUserKeypackages acc.2 owner now
  let deletable_count :=
    if expired_ids.length < total_count then expired_ids.length
    else expired_ids.length - 1
  let to_delete := expired_ids.take deletable_count
  (acc.1 + to_delete.length, acc.2.filter (fun d => !(to_delete.contains d.event_id)))

/-- `cleanup_expired_keypackages`: query the expired documents, group their
ids by owner, then per owner delete as many expired keypackages as is safe.
The Rust `HashMap` iterates its owners in an unspecified order; the owners'
effects are disjoint (each step deletes only ids of that owner's expired
documents and recounts only that owner), so the model fixes the
first-appearance order of `expired_docs`. -/
def cleanupExpiredKeypackages (store : List KeyPackageDoc) (now : Int) :
    Nat × List KeyPackageDoc :=
  let owners := ((expiredDocs store now).map (·.owner_pubkey)).dedup
  owners.foldl (fun acc owner => cleanupOwner store now owner acc) (0, store)

/-! ## Group registry and roster log (`firestore.rs`, `mod.rs`) -/

/-- `GroupInfo` in `firestore.rs`. -/
structure GroupInfo where
  group_id : String
  display_name : Option String
  owner_pubkey : String
  last_epoch : Option Int
  admin_pubkeys : List String
  service_member : Bool
  created_at : Int
  updated_at : Int
  deriving Repr, DecidableEq

/-- `RosterPolicyDocument` in `firestore.rs`. -/
structure RosterPolicyDocument where
  group_id : String
  sequence : Nat
  operation : String
  member_pubkeys : List String
  admin_pubkey : String
  created_at : Int
  updated_at : Int
  deriving Repr, DecidableEq

/-- The modelled slice of the Firestore state: the `mls_groups` and
`roster_policy` collections. -/
structure MlsState where
  groups : List GroupInfo
  roster : List RosterPolicyDocument
  deriving Repr, DecidableEq

/-- `fetch_group`: query `mls_groups` by `group_id`, limit 1 — the first
matching document. -/
def fetchGroup (s : MlsState) (group_id : String) : Option GroupInfo :=
  s.groups.find? (fun g => g.group_id = group_id)

/-- Write a full `GroupInfo` document under document id `group_id`
(`update().fields(all fields)` overwrites the document, creating it when
absent). -/
def putGroup (s : MlsState) (g : GroupInfo) : MlsState :=
  if s.groups.any (fun x => x.group_id = g.group_id) then
    { s with groups := s.groups.map (fun x => if x.group_id = g.group_id then g else x) }
  else
    { s with groups := s.groups ++ [g] }

/-- `upsert_group` (the inherent `FirestoreStorage` method, `last_epoch`
non-optional): preserve owner, `created_at`, admins, `service_member` of an
existing group, fall back to the stored `display_name`/`last_epoch` via
`Option::or` exactly as the source writes them. -/
def upsertGroup (s : MlsState) (group_id : String) (display_name : Option String)
    (owner_pubkey : String) (last_epoch : Int) (now : Int) : MlsState :=
  let existing := fetchGroup s group_id
  let vals := match existing with
    | some g => (g.owner_pubkey, g.created_at, g.admin_pubkeys, g.display_name,
                 g.last_epoch, g.service_member)
    | none => (owner_pubkey, now, [], none, none, false)
  let group : GroupInfo := {
    group_id := group_id
    display_name := display_name.or vals.2.2.2.1
    owner_pubkey := vals.1
    last_epoch := (some last_epoch).or vals.2.2.2.2.1
    admin_pubkeys := vals.2.2.1
    service_member := vals.2.2.2.2.2
    created_at := vals.2.1
    updated_at := now }
  putGroup s group

/-- `MlsStorage::upsert_group` for the Firestore backend: an absent epoch is
replaced by `0` (`epoch.unwrap_or(0)`). -/
def upsertGroupOpt (s : MlsState) (group_id : String) (display_name : Option String)
    (creator_pubkey : String) (epoch : Option Int) (now : Int) : MlsState :=
  upsertGroup s group_id display_name creator_pubkey (epoch.getD 0) now

/-- `group_exists`. -/
def groupExists (s : MlsState) (group_id : String) : Bool :=
  (fetchGroup s group_id).isSome

/-- `is_owner`. -/
def isOwner (s : MlsState) (group_id pubkey : String) : Bool :=
  match fetchGroup s group_id with
  | some g => g.owner_pubkey = pubkey
  | none => false

/-- `is_admin`. -/
def isAdmin (s : MlsState) (group_id pubkey : String) : Bool :=
  match fetchGroup s group_id with
  | some g => g.admin_pubkeys.contains pubkey
  | none => false

/-- Patch the admin list of the group document (the `AdminsPatch` write with
`document_id(group_id)`).  Every modelled caller patches an existing
document; a patch of an absent document is not exercised and is a no-op
here. -/
def patchAdmins (s : MlsState) (group_id : String) (admins : List String) (now : Int) :
    MlsState :=
  { s with groups := s.groups.map (fun g =>
      if g.group_id = group_id then { g with admin_pubkeys := admins, updated_at := now }
      else g) }

/-- `add_admins`: union the new admins into the current list, preserving
order and skipping duplicates. -/
def addAdmins (s : MlsState) (group_id : String) (admins : List String) (now : Int) :
    MlsState :=
  let current := ((fetchGroup s group_id).map (·.admin_pubkeys)).getD []
  let merged := admins.foldl (fun cur a => if cur.contains a then cur else cur ++ [a]) current
  patchAdmins s group_id merged now

/-- `remove_admins`: set-subtract (`retain`). -/
def removeAdmins (s : MlsState) (group_id : String) (admins : List String) (now : Int) :
    MlsState :=
  let current := ((fetchGroup s group_id).map (·.admin_pubkeys)).getD []
  let remaining := current.filter (fun p => !(admins.contains p))
  patchAdmins s group_id remaining now

/-- `get_last_roster_sequence`: order the group's roster documents by
`sequence` descending, limit 1 — the maximum sequence, if any. -/
def getLastRosterSequence (s : MlsState) (group_id : String) : Option Nat :=
  ((s.roster.filter (fun d => d.group_id = group_id)).map (·.sequence)).max?

/-- `store_roster_policy`: reject `sequence <= last`, otherwise insert the
document (document id `{group_id}_{sequence}`; the insert itself cannot
collide after the check, since an existing `(group_id, sequence)` forces
`last ≥ sequence`). -/
def storeRosterPolicy (s : MlsState) (group_id : String) (sequence : Nat)
    (operation : String) (member_pubkeys : List String) (admin_pubkey : String)
    (created_at : Int) (now : Int) : Except GatewayErr MlsState :=
  match getLastRosterSequence s group_id with
  | some last =>
    if sequence ≤ last then .error (.storeInvalidSequence sequence last)
    else .ok { s with roster := s.roster ++ [{
      group_id := group_id, sequence := sequence, operation := operation,
      member_pubkeys := member_pubkeys, admin_pubkey := admin_pubkey,
      created_at := created_at, updated_at := now }] }
  | none => .ok { s with roster := s.roster ++ [{
      group_id := group_id, sequence := sequence, operation := operation,
      member_pubkeys := member_pubkeys, admin_pubkey := admin_pubkey,
      created_at := created_at, updated_at := now }] }

/-! ## Nostr events and the kind-450 roster handler (`mod.rs`) -/

/-- The slice of a Nostr event the modelled handlers read. -/
structure NostrEvent where
  id : String
  pubkey : List Nat
  created_at : Int
  kind : Nat
  tags : List (List String)
  content : String
  deriving Repr, DecidableEq

/-- `handle_roster_policy` (kind 450): tag extraction, authorization,
sequence staleness, audit-log write, then the per-operation registry
mutation.  The early `return Err(..)` exits of the Rust function are
embedded as nested matches producing `.error`. -/
def handleRosterPolicy (s : MlsState) (ev : NostrEvent) (now : Int) :
    Except GatewayErr MlsState :=
  let event_pubkey := hexS ev.pubkey
  match firstTagValue ev.tags "h" with
  | none => .error .missingGroupId
  | some group_id =>
    match firstTagValue ev.tags "op" with
    | none => .error .missingOperation
    | some operation =>
      let auth : Except GatewayErr Unit :=
        if !groupExists s group_id then
          if operation ≠ "bootstrap" then .error .bootstrapRequired else .ok ()
        else
          if !(isOwner s group_id event_pubkey || isAdmin s group_id event_pubkey) then
            .error .unauthorizedRoster
          else .ok ()
      match auth with
      | .error e => .error e
      | .ok _ =>
        match (firstTagValue ev.tags "seq").bind parseU64 with
        | none => .error .missingOrInvalidSeq
        | some sequence =>
          if !(operation == "add" || operation == "remove" || operation == "promote" ||
               operation == "demote" || operation == "bootstrap" || operation == "replace") then
            .error (.invalidOperation operation)
          else
            let member_pubkeys := (ev.tags.filter
              (fun t => 2 ≤ t.length && t.headD "" = "p")).map (fun t => t.getD 1 "")
            let stale : Bool := match getLastRosterSequence s group_id with
              | some last_sequence => decide (sequence ≤ last_sequence)
              | none => false
            if stale then .error .staleSequence
            else
              match storeRosterPolicy s group_id sequence operation member_pubkeys
                event_pubkey ev.created_at now with
              | .error e => .error e
              | .ok s1 =>
                let role_admin := ((firstTagValue ev.tags "role").map
                  (fun v => rustToLowercase v == "admin")).getD false
                .ok (match operation with
                  | "bootstrap" =>
                    addAdmins (upsertGroup s1 group_id none event_pubkey 0 now)
                      group_id [event_pubkey] now
                  | "add" => upsertGroup s1 group_id none event_pubkey 0 now
                  | "replace" => upsertGroup s1 group_id none event_pubkey 0 now
                  | "promote" =>
                    if role_admin && !member_pubkeys.isEmpty then
                      addAdmins s1 group_id member_pubkeys now
                    else s1
                  | "demote" =>
                    if role_admin && !member_pubkeys.isEmpty then
                      removeAdmins s1 group_id member_pubkeys now
                    else s1
                  | _ => s1)

/-! ## Kind-443 keypackage ingest (`mod.rs`, `handle_keypackage`) -/

/-- The configuration fields `handle_keypackage` reads. -/
structure GatewayConfig where
  max_keypackages_per_user : Option Nat
  keypackage_ttl : Nat
  deriving Repr, DecidableEq

/-- `store_keypackage`: a Firestore `insert()` under document id `event_id`
fails when the document already exists, otherwise appends the document. -/
def storeKeypackage (store : List KeyPackageDoc) (event_id owner_pubkey content
    ciphersuite : String) (extensions relays : List String)
    (created_at expires_at : Int) : Except GatewayErr (List KeyPackageDoc) :=
  if store.any (fun d => d.event_id = event_id) then .error .keypackageInsertExists
  else .ok (store ++ [{
    event_id := event_id, owner_pubkey := owner_pubkey, content := content,
    ciphersuite := ciphersuite, extensions := extensions, relays := relays,
    created_at := created_at, expires_at := expires_at }])

/-- The kind-443 content shape check of `handle_keypackage`:
`!content.is_empty() && content.len() % 2 == 0 && content.bytes().all(|b| (b as char).is_ascii_hexdigit())`.
(The Rust check runs over UTF-8 bytes; a non-ASCII character makes the `all`
fail and forces byte length = char length otherwise, so the char-level check
is equivalent.) -/
def keypackageContentIsHex (content : List Char) : Bool :=
  !content.isEmpty && content.length % 2 == 0 && content.all isAsciiHexdigit

/-- `handle_keypackage` (kind 443): owner-tag match, expiry check, soft tag
extraction, content shape check, per-user quota, then `store_keypackage` with
`expires_at = exp` if present else `now + keypackage_ttl`.  The early
`return Err(..)` exits are embedded as nested matches producing `.error`;
the spawned last-resort timer task runs after the handler returns and is
outside the returned store. -/
def handleKeypackage (cfg : GatewayConfig) (store : List KeyPackageDoc)
    (ev : NostrEvent) (now : Int) : Except GatewayErr (List KeyPackageDoc) :=
  let event_pubkey := hexS ev.pubkey
  let ownerCheck : Except GatewayErr Unit :=
    match firstTagValue ev.tags "p" with
    | some owner => if owner ≠ event_pubkey then .error .ownerMismatch else .ok ()
    | none => .ok ()
  match ownerCheck with
  | .error e => .error e
  | .ok _ =>
    let expiry := (firstTagValue ev.tags "exp").bind parseI64
    let expCheck : Except GatewayErr Unit :=
      match expiry with
      | some exp_timestamp =>
        if exp_timestamp ≤ now then .error .keypackageExpired else .ok ()
      | none => .ok ()
    match expCheck with
    | .error e => .error e
    | .ok _ =>
      let ciphersuite := firstTagValue ev.tags "ciphersuite"
      let extensions := (ev.tags.find? (fun t => 2 ≤ t.length && t.headD "" = "extensions")).map
        (fun t => t.drop 1)
      let relays_vec := (ev.tags.find? (fun t => !t.isEmpty && t.headD "" = "relays")).map
        (fun t => t.drop 1)
      let relay_tags := (ev.tags.filter (fun t => 2 ≤ t.length && t.headD "" = "relay")).map
        (fun t => t.getD 1 "")
      let all_relays := match relays_vec with
        | some rv => rv
        | none => relay_tags
      let content := rustTrim ev.content.data
      if !keypackageContentIsHex content then .error .invalidContent
      else
        let max_keypackages := cfg.max_keypackages_per_user.getD 10
        let current_count := countUserKeypackages store event_pubkey now
        if max_keypackages ≤ current_count then .error .quotaExceeded
        else
          let expires_at := match expiry with
            | some e => e
            | none => now + (cfg.keypackage_ttl : Int)
          storeKeypackage store ev.id event_pubkey ⟨content⟩
            (ciphersuite.getD "") (extensions.getD []) all_relays ev.created_at expires_at

/-! ## NIP-KR canonical MAC input (`kr.rs`) -/

/-- `be32` inside `canonical_input`: `(n as u32).to_be_bytes()` — the length
is truncated modulo `2^32` before being split into four big-endian bytes. -/
def be32 (n : Nat) : List Nat :=
  [n / 2 ^ 24 % 256, n / 2 ^ 16 % 256, n / 2 ^ 8 % 256, n % 256]

/-- `canonical_input`: length-prefixed concatenation of the UTF-8 bytes of
`client_id`, `version_id` and `secret` (each embedded as its byte list). -/
def canonicalInput (client_id version_id secret : List Nat) : List Nat :=
  be32 client_id.length ++ client_id ++
  be32 version_id.length ++ version_id ++
  be32 secret.length ++ secret

/-- base64url without padding, as `URL_SAFE_NO_PAD.encode`. -/
def b64urlNoPad (bs : List Nat) : String := ⟨encodeB64 urlAlphabet false bs⟩

/-- `hmac_sign_base64url`, with the HMAC-SHA-256 primitive — an external
library the gateway only calls — passed in as the function `mac` from
`(key, data)` to the 32-byte tag. -/
def hmacSignBase64url (mac : List Nat → List Nat → List Nat)
    (key data : List Nat) : String :=
  b64urlNoPad (mac key data)

/-- The `secret_hash` of `prepare_rotation_local`: the base64url-no-pad
HMAC tag over the canonical input. -/
def secretHash (mac : List Nat → List Nat → List Nat) (key : List Nat)
    (client_id version_id secret : List Nat) : String :=
  hmacSignBase64url mac key (canonicalInput client_id version_id secret)

/-! ## NIP-KR rotation store (`store.rs`, `InMemoryStore`) -/

/-- `SecretState` in `store.rs`. -/
inductive SecretState where
  | pending
  | current
  | grace
  | retired
  deriving Repr, DecidableEq

/-- `SecretVersionRecord` in `store.rs`. -/
structure SecretVersionRecord where
  client_id : String
  version_id : String
  secret_hash : String
  mac_key_ref : String
  not_before_ms : Int
  not_after_ms : Option Int
  state : SecretState
  rotated_by : Option String
  rotation_reason : Option String
  deriving Repr, DecidableEq

/-- `RotationOutcome` in `store.rs`. -/
inductive RotationOutcome where
  | none
  | promoted
  | canceled
  | expired
  | rolledBack
  deriving Repr, DecidableEq

/-- `RotationRecord` in `store.rs`. -/
structure RotationRecord where
  action_id : String
  client_id : String
  new_version : String
  old_version : Option String
  not_before_ms : Int
  grace_until_ms : Option Int
  quorum_required : Nat
  quorum_acks : Nat
  outcome : RotationOutcome
  deriving Repr, DecidableEq

/-- Lookup in a `HashMap` embedded as an association list. -/
def alGet {κ ν : Type} [DecidableEq κ] (m : List (κ × ν)) (key : κ) : Option ν :=
  (m.find? (fun p => p.1 = key)).map (·.2)

/-- `HashMap::insert`: overwrite the binding for `key`. -/
def alSet {κ ν : Type} [DecidableEq κ] (m : List (κ × ν)) (key : κ) (val : ν) :
    List (κ × ν) :=
  (key, val) :: m.filter (fun p => p.1 ≠ key)

/-- `InMemoryInner` in `store.rs`: the four maps behind the mutex. -/
structure KrState where
  versions : List ((String × String) × SecretVersionRecord)
  rotations : List (String × RotationRecord)
  current_version : List (String × String)
  previous_version : List (String × String)
  deriving Repr, DecidableEq

/-- The empty store (`InMemoryInner::default`). -/
def krInit : KrState := ⟨[], [], [], []⟩

/-- `versions.get_mut(key)` followed by `state = st`: update the record's
state when the key is present, otherwise do nothing. -/
def setVersionState (versions : List ((String × String) × SecretVersionRecord))
    (key : String × String) (st : SecretState) :
    List ((String × String) × SecretVersionRecord) :=
  versions.map (fun p => if p.1 = key then (p.1, { p.2 with state := st }) else p)

/-- `rotations.get_mut(rid)` followed by `outcome = o`. -/
def setOutcome (rotations : List (String × RotationRecord)) (rid : String)
    (o : RotationOutcome) : List (String × RotationRecord) :=
  rotations.map (fun p => if p.1 = rid then (p.1, { p.2 with outcome := o }) else p)

/-- `prepare_rotation`: insert a pending version record and a rotation audit
entry whose `old_version` is the client's current pointer. -/
def prepareRotation (s : KrState) (client_id version_id secret_hash mac_key_ref : String)
    (not_before_ms : Int) (grace_duration_ms : Option Int) (rotation_id : String)
    (rotation_reason : Option String) (quorum_required : Nat) : KrState :=
  let record : SecretVersionRecord := {
    client_id := client_id
    version_id := version_id
    secret_hash := secret_hash
    mac_key_ref := mac_key_ref
    not_before_ms := not_before_ms
    not_after_ms := grace_duration_ms.map (fun gms => not_before_ms + gms)
    state := .pending
    rotated_by := none
    rotation_reason := rotation_reason }
  let rot : RotationRecord := {
    action_id := rotation_id
    client_id := client_id
    new_version := version_id
    old_version := alGet s.current_version client_id
    not_before_ms := not_before_ms
    grace_until_ms := grace_duration_ms.map (fun gms => not_before_ms + gms)
    quorum_required := quorum_required
    quorum_acks := 0
    outcome := .none }
  { s with
    versions := alSet s.versions (client_id, version_id) record
    rotations := alSet s.rotations rotation_id rot }

/-- `promote_rotation`: no-op when the rotation id is unknown; otherwise move
the current pointer to previous and set its record (when present) to grace,
point current at the rotation's new version and set its record (when
present) to current, finally mark the rotation promoted. -/
def promoteRotation (s : KrState) (client_id rotation_id : String) : KrState :=
  match alGet s.rotations rotation_id with
  | none => s
  | some r =>
    let new_version := r.new_version
    let s1 := match alGet s.current_version client_id with
      | some cur =>
        { s with
          previous_version := alSet s.previous_version client_id cur
          versions := setVersionState s.versions (client_id, cur) .grace }
      | none => s
    let s2 := { s1 with
      current_version := alSet s1.current_version client_id new_version
      versions := setVersionState s1.versions (client_id, new_version) .current }
    { s2 with rotations := setOutcome s2.rotations rotation_id .promoted }

/-- `record_ack`: saturating increment of `quorum_acks` (u32). -/
def recordAck (s : KrState) (rotation_id : String) : KrState :=
  { s with rotations := s.rotations.map (fun p =>
      if p.1 = rotation_id then
        (p.1, { p.2 with quorum_acks := min (p.2.quorum_acks + 1) (2 ^ 32 - 1) })
      else p) }

/-- States of the in-memory rotation store reachable from the empty store by
the three trait operations. -/
inductive KrReachable : KrState → Prop where
  | init : KrReachable krInit
  | prepare (s : KrState) (client_id version_id secret_hash mac_key_ref : String)
      (not_before_ms : Int) (grace_duration_ms : Option Int) (rotation_id : String)
      (rotation_reason : Option String) (quorum_required : Nat) :
      KrReachable s →
      KrReachable (prepareRotation s client_id version_id secret_hash mac_key_ref
        not_before_ms grace_duration_ms rotation_id rotation_reason quorum_required)
  | ack (s : KrState) (rotation_id : String) :
      KrReachable s → KrReachable (recordAck s rotation_id)
  | promote (s : KrState) (client_id rotation_id : String) :
      KrReachable s → KrReachable (promoteRotation s client_id rotation_id)

/-! ## Theorems

Helper lemmas first, then one theorem per claim (with its witness or
counterexample where required). -/

/-- Concrete witness store for the consumption claims. -/
def c1Store : List KeyPackageDoc :=
  [⟨"k1", "u", "c1", "cs", [], [], 0, 100⟩, ⟨"k2", "u", "c2", "cs", [], [], 0, 100⟩]

/-- Concrete registry state for the C5 results: group `G` with stored
`last_epoch = some 5`. -/
def c5State : MlsState :=
  ⟨[⟨"G", some "n", "ow", some 5, ["ow"], false, 0, 0⟩], []⟩

/-- Registry state for the C4 counterexample: group `G` owned by `6f`, with
`aa` an admin, and one bootstrap entry at sequence 1 in the roster log. -/
def c4State : MlsState :=
  ⟨[⟨"G", none, "6f", none, ["6f", "aa"], false, 0, 0⟩],
   [⟨"G", 1, "bootstrap", [], "6f", 0, 0⟩]⟩

/-- A kind-450 re-bootstrap of `G` authored by admin `aa` (pubkey byte
`0xaa`), at the fresh sequence 2. -/
def c4Event : NostrEvent :=
  ⟨"e9", [0xaa], 20, 450, [["h", "G"], ["op", "bootstrap"], ["seq", "2"]], ""⟩

/-- A fresh bootstrap event for the C4 witness: empty registry, author `6f`. -/
def c4WitEvent : NostrEvent :=
  ⟨"e1", [0x6f], 10, 450,
   [["h", "G"], ["op", "bootstrap"], ["seq", "1"], ["p", "6f"]], ""⟩

/-- A kind-450 `add` at the already-stored sequence 1 of group `G`, authored
by the owner `6f`. -/
def c3Event : NostrEvent :=
  ⟨"e3", [0x6f], 12, 450, [["h", "G"], ["op", "add"], ["seq", "1"]], ""⟩

/-- The pointer discipline of the rotation store: every version record in
state `current` is the one its client's current pointer names. -/
def KrCurrentInv (s : KrState) : Prop :=
  ∀ c ver rec, alGet s.versions (c, ver) = some rec →
    rec.state = SecretState.current → alGet s.current_version c = some ver

/-- One prepared rotation `R1` of client `A` to version `v1`. -/
def c9s1 : KrState := prepareRotation krInit "A" "v1" "h" "m" 0 none "R1" none 1

/-- `R1` promoted once: `v1` is current for `A`. -/
def c9s2 : KrState := promoteRotation c9s1 "A" "R1"

/-- `R1` promoted a second time from `c9s2`. -/
def c9s3 : KrState := promoteRotation c9s2 "A" "R1"

/-- Configuration for the C6 results: no explicit per-user cap (default 10),
7-day TTL. -/
def c6Config : GatewayConfig := ⟨none, 604800⟩

/-- A kind-443 event whose content `"AB"` is uppercase hex. -/
def c6Event : NostrEvent :=
  ⟨"id1", [0xab], 20, 443,
   [["mls_protocol_version", "1.0"], ["ciphersuite", "cs"], ["extensions", "ext"],
    ["relays", "wss://r"]], "AB"⟩

/-- The spec's content predicate ("non-empty lowercase hex"), stated from
the spec's words for comparison with the code's check. -/
def spec_lowercase_hex (c : Char) : Bool :=
  ('0' ≤ c && c ≤ '9') || ('a' ≤ c && c ≤ 'f')

/-- A kind-443 event with odd-length content `"abc"`. -/
def c6WitEvent : NostrEvent :=
  ⟨"id2", [0xab], 20, 443, [["p", "ab"], ["ciphersuite", "cs"]], "abc"⟩

/-- A concrete store for the C2 witness: owner `u` with one valid and two
expired keypackages, owner `w` with one valid keypackage. -/
def c2Store : List KeyPackageDoc :=
  [⟨"a", "u", "c", "cs", [], [], 0, 100⟩, ⟨"b", "u", "c", "cs", [], [], 0, -5⟩,
   ⟨"c", "u", "c", "cs", [], [], 0, -3⟩, ⟨"g", "w", "c", "cs", [], [], 0, 50⟩]

/-- The 6-bit symbol stream of a byte string (the base64 symbols before the
alphabet is applied); mirrors the chunking of `encodeB64`. -/
def symsOf : List Nat → List Nat
  | [] => []
  | [b1] => [b1 / 4, b1 % 4 * 16]
  | [b1, b2] => [b1 / 4, b1 % 4 * 16 + b2 / 16, b2 % 16 * 4]
  | b1 :: b2 :: b3 :: rest =>
    b1 / 4 :: (b1 % 4 * 16 + b2 / 16) :: (b2 % 16 * 4 + b3 / 64) :: b3 % 64 :: symsOf rest

/-- The padding characters a padded engine appends for a byte string. -/
def padChars (bs : List Nat) : List Char :=
  if bs.length % 3 = 1 then ['=', '='] else if bs.length % 3 = 2 then ['='] else []

/-- Well-formedness of a base64 alphabet table: 64 characters, `symVal`
inverts `symChar`, and `=` is not in the table. -/
def alOK (al : List Char) : Prop :=
  al.length = 64 ∧ (∀ n : Fin 64, symVal al (symChar al n.val) = some n.val) ∧
  symVal al '=' = none

/-- In a list whose `f`-image is duplicate-free, removing the elements that
`f` maps to `y` removes exactly one element when one maps to `y`. -/
theorem length_filter_ne_of_nodup_map {α β : Type} [DecidableEq β] (f : α → β)
    (l : List α) (a : α) (y : β) (hn : (l.map f).Nodup) (hm : a ∈ l) (hf : f a = y) :
    (l.filter (fun x => f x ≠ y)).length + 1 = l.length := by
  induction l with
  | nil => cases hm
  | cons x xs ih =>
    simp only [List.map_cons, List.nodup_cons] at hn
    rcases List.mem_cons.mp hm with rfl | ham
    · have hxs : xs.filter (fun b => decide (f b ≠ y)) = xs := by
        apply List.filter_eq_self.mpr
        intro b hb
        have hb' : f b ≠ y := by
          intro hby
          exact hn.1 (hf ▸ hby ▸ List.mem_map_of_mem f hb)
        simpa using hb'
      simp [List.filter_cons, hf, hxs]
      intro b hb hby
      exact hn.1 (hf ▸ hby ▸ List.mem_map_of_mem f hb)
    · have hxy : f x ≠ y := by
        intro hxy
        exact hn.1 (hxy ▸ hf ▸ List.mem_map_of_mem f ham)
      have hrec := ih hn.2 ham
      simp only [List.filter_cons, ne_eq]
      have hcond : (decide ¬ f x = y) = true := by simpa using hxy
      rw [hcond]
      simp only [if_true, List.length_cons]
      simp only [ne_eq] at hrec
      omega

/-- C1: for a stored keypackage id, `delete_consumed_keypackage` reads the
record's owner, counts that owner's non-expired keypackages, returns `false`
without deleting when the count is ≤ 1, and otherwise returns `true` deleting
exactly that record (all other records survive). -/
theorem delete_consumed_keypackage_spec (store : List KeyPackageDoc) (now : Int)
    (event_id : String) (kp : KeyPackageDoc)
    (hfind : store.find? (fun d => d.event_id = event_id) = some kp)
    (hnodup : (store.map (·.event_id)).Nodup) :
    (countUserKeypackages store kp.owner_pubkey now ≤ 1 →
      deleteConsumedKeypackage store now event_id = (false, store)) ∧
    (1 < countUserKeypackages store kp.owner_pubkey now →
      (deleteConsumedKeypackage store now event_id).1 = true ∧
      (deleteConsumedKeypackage store now event_id).2 =
        store.filter (fun d => d.event_id ≠ event_id) ∧
      kp ∉ (deleteConsumedKeypackage store now event_id).2 ∧
      (∀ d ∈ store, d.event_id ≠ event_id →
        d ∈ (deleteConsumedKeypackage store now event_id).2) ∧
      ((deleteConsumedKeypackage store now event_id).2).length + 1 = store.length) := by
  have hkmem : kp ∈ store := List.mem_of_find?_eq_some hfind
  have hkid : kp.event_id = event_id := by
    have := List.find?_some hfind
    simpa using this
  constructor
  · intro hle
    simp [deleteConsumedKeypackage, hfind, hle]
  · intro hgt
    have hnle : ¬ countUserKeypackages store kp.owner_pubkey now ≤ 1 := by omega
    refine ⟨?_, ?_, ?_, ?_, ?_⟩
    · simp [deleteConsumedKeypackage, hfind, hnle]
    · simp [deleteConsumedKeypackage, hfind, hnle]
    · simp only [deleteConsumedKeypackage, hfind, hnle, if_false]
      intro hmem
      have := (List.mem_filter.mp hmem).2
      simp [hkid] at this
    · intro d hd hne
      simp only [deleteConsumedKeypackage, hfind, hnle, if_false]
      exact List.mem_filter.mpr ⟨hd, by simpa using hne⟩
    · simp only [deleteConsumedKeypackage, hfind, hnle, if_false]
      exact length_filter_ne_of_nodup_map (·.event_id) store kp event_id hnodup hkmem hkid

/-- Witness for C1: with two valid keypackages, consuming `k1` succeeds. -/
theorem delete_consumed_keypackage_spec_witness :
    (deleteConsumedKeypackage c1Store 0 "k1").1 = true ∧
    ((deleteConsumedKeypackage c1Store 0 "k1").2).length + 1 = c1Store.length :=
  have h := delete_consumed_keypackage_spec c1Store 0 "k1"
    ⟨"k1", "u", "c1", "cs", [], [], 0, 100⟩ (by decide) (by decide)
  ⟨(h.2 (by decide)).1, (h.2 (by decide)).2.2.2.2⟩

/-- C10: an id that matches no stored keypackage yields `false` (the handler
falls through to the final `Ok(false)`) and leaves the collection unchanged;
no error path is taken. -/
theorem delete_consumed_keypackage_unknown_id (store : List KeyPackageDoc)
    (now : Int) (event_id : String)
    (habsent : ∀ d ∈ store, d.event_id ≠ event_id) :
    deleteConsumedKeypackage store now event_id = (false, store) := by
  have hfind : store.find? (fun d => d.event_id = event_id) = none := by
    apply List.find?_eq_none.mpr
    intro d hd
    simpa using habsent d hd
  simp [deleteConsumedKeypackage, hfind]

/-- Witness for C10: an unknown id on the concrete store. -/
theorem delete_consumed_keypackage_unknown_id_witness :
    deleteConsumedKeypackage c1Store 0 "zz" = (false, c1Store) :=
  delete_consumed_keypackage_unknown_id c1Store 0 "zz" (by decide)

/-- Replacing every list entry whose id matches, when one matches, makes the
first fetched entry the replacement. -/
theorem find?_map_replace (l : List GroupInfo) (g : GroupInfo)
    (hany : l.any (fun x => x.group_id = g.group_id) = true) :
    (l.map (fun x => if x.group_id = g.group_id then g else x)).find?
      (fun x => x.group_id = g.group_id) = some g := by
  induction l with
  | nil => simp at hany
  | cons y ys ih =>
    by_cases hy : y.group_id = g.group_id
    · simp only [List.map_cons, if_pos hy]
      exact List.find?_cons_of_pos _ (by simp)
    · simp only [List.map_cons, if_neg hy]
      rw [List.find?_cons_of_neg _ (by simpa using hy)]
      exact ih (by simpa [List.any_cons, hy] using hany)

/-- Appending a fresh entry, when nothing matched, makes the fetch find it. -/
theorem find?_append_single (l : List GroupInfo) (g : GroupInfo)
    (hnone : l.find? (fun x => x.group_id = g.group_id) = none) :
    (l ++ [g]).find? (fun x => x.group_id = g.group_id) = some g := by
  induction l with
  | nil => exact List.find?_cons_of_pos _ (by simp)
  | cons y ys ih =>
    rw [List.find?_cons] at hnone
    split at hnone
    · cases hnone
    · rw [List.cons_append, List.find?_cons]
      split
      · simp_all
      · exact ih hnone

/-- Patching every matching entry with an id-preserving function patches the
first fetched entry. -/
theorem find?_map_patch (l : List GroupInfo) (gid : String) (f : GroupInfo → GroupInfo)
    (hf : ∀ x, (f x).group_id = x.group_id) (g : GroupInfo)
    (hfind : l.find? (fun x => x.group_id = gid) = some g) :
    (l.map (fun x => if x.group_id = gid then f x else x)).find?
      (fun x => x.group_id = gid) = some (f g) := by
  induction l with
  | nil => simp [List.find?] at hfind
  | cons y ys ih =>
    by_cases hy : y.group_id = gid
    · rw [List.find?_cons_of_pos _ (by simpa using hy)] at hfind
      cases hfind
      simp only [List.map_cons, if_pos hy]
      exact List.find?_cons_of_pos _ (by simp [hf, hy])
    · rw [List.find?_cons_of_neg _ (by simpa using hy)] at hfind
      simp only [List.map_cons, if_neg hy]
      rw [List.find?_cons_of_neg _ (by simpa [hf] using hy)]
      exact ih hfind

/-- Writing a group document and reading it back by its id yields exactly the
written document. -/
theorem fetchGroup_putGroup (s : MlsState) (g : GroupInfo) :
    fetchGroup (putGroup s g) g.group_id = some g := by
  unfold putGroup fetchGroup
  by_cases hany : s.groups.any (fun x => x.group_id = g.group_id)
  · simp only [hany, if_true]
    exact find?_map_replace s.groups g hany
  · simp only [hany, if_false]
    apply find?_append_single
    rw [List.find?_eq_none]
    intro x hx
    simp only [decide_eq_true_eq]
    intro hxg
    exact hany (List.any_eq_true.mpr ⟨x, hx, by simp [hxg]⟩)

/-- Patching the admins of a fetched group document is visible in a
subsequent fetch. -/
theorem fetchGroup_patchAdmins (s : MlsState) (gid : String) (admins : List String)
    (now : Int) (g : GroupInfo) (hfind : fetchGroup s gid = some g) :
    fetchGroup (patchAdmins s gid admins now) gid =
      some { g with admin_pubkeys := admins, updated_at := now } := by
  unfold fetchGroup at hfind ⊢
  unfold patchAdmins
  exact find?_map_patch s.groups gid
    (fun x => { x with admin_pubkeys := admins, updated_at := now })
    (fun x => rfl) g hfind

/-- C5 (amended): on an existing group, `upsert_group` leaves `owner_pubkey`,
`created_at`, the admin set and `service_member` unchanged, and
`display_name` follows COALESCE semantics (an absent argument preserves the
stored value).  `last_epoch`, however, is always overwritten with the
supplied epoch (`Some(last_epoch).or(existing)` is always `Some(last_epoch)`),
and the trait-level call with an absent epoch stores `some 0`
(`epoch.unwrap_or(0)`) instead of preserving the stored value. -/
theorem upsert_group_existing (s : MlsState) (gid : String) (dn : Option String)
    (owner : String) (le : Int) (now : Int) (g : GroupInfo)
    (hfind : fetchGroup s gid = some g) :
    fetchGroup (upsertGroup s gid dn owner le now) gid = some {
      group_id := gid
      display_name := dn.or g.display_name
      owner_pubkey := g.owner_pubkey
      last_epoch := some le
      admin_pubkeys := g.admin_pubkeys
      service_member := g.service_member
      created_at := g.created_at
      updated_at := now } ∧
    fetchGroup (upsertGroupOpt s gid dn owner none now) gid = some {
      group_id := gid
      display_name := dn.or g.display_name
      owner_pubkey := g.owner_pubkey
      last_epoch := some 0
      admin_pubkeys := g.admin_pubkeys
      service_member := g.service_member
      created_at := g.created_at
      updated_at := now } := by
  constructor
  · unfold upsertGroup
    rw [hfind]
    exact fetchGroup_putGroup s _
  · unfold upsertGroupOpt upsertGroup
    rw [hfind]
    exact fetchGroup_putGroup s _

/-- Counterexample to C5 as stated: the stored `last_epoch` of `G` is
`some 5`, yet an upsert with an absent epoch argument rewrites it to
`some 0` — the absent argument does not preserve the existing stored value. -/
theorem upsert_group_last_epoch_counterexample :
    (fetchGroup c5State "G").map (fun g => g.last_epoch) = some (some 5) ∧
    (fetchGroup (upsertGroupOpt c5State "G" none "zz" none 7) "G").map
      (fun g => g.last_epoch) = some (some 0) ∧
    some (5 : Int) ≠ some (0 : Int) := by
  refine ⟨by decide, ?_, by decide⟩
  decide

/-- Witness for C5: applying the theorem to the concrete state. -/
theorem upsert_group_existing_witness :
    fetchGroup (upsertGroup c5State "G" none "zz" 7 9) "G" =
      some ⟨"G", some "n", "ow", some 7, ["ow"], false, 0, 9⟩ :=
  (upsert_group_existing c5State "G" none "zz" 7 9
    ⟨"G", some "n", "ow", some 5, ["ow"], false, 0, 0⟩ (by decide)).1

/-- A successful `store_roster_policy` only appends to the roster log; the
group registry is untouched. -/
theorem storeRosterPolicy_groups (s : MlsState) (gid : String) (seq : Nat)
    (op : String) (mem : List String) (adm : String) (ca now : Int) (t : MlsState)
    (h : storeRosterPolicy s gid seq op mem adm ca now = .ok t) :
    t.groups = s.groups := by
  unfold storeRosterPolicy at h
  split at h
  · split at h
    · cases h
    · cases h
      rfl
  · cases h
    rfl

/-- An accepted bootstrap factors as: audit-log append (groups untouched),
then `upsert_group` with the author as owner argument and epoch 0, then
`add_admins` with the author. -/
theorem roster_bootstrap_shape (s : MlsState) (ev : NostrEvent) (now : Int)
    (s' : MlsState) (gid : String)
    (hgid : firstTagValue ev.tags "h" = some gid)
    (hop : firstTagValue ev.tags "op" = some "bootstrap")
    (hok : handleRosterPolicy s ev now = .ok s') :
    ∃ s1 : MlsState, s1.groups = s.groups ∧
      s' = addAdmins (upsertGroup s1 gid none (hexS ev.pubkey) 0 now)
        gid [hexS ev.pubkey] now := by
  unfold handleRosterPolicy at hok
  rw [hgid, hop] at hok
  simp only [ne_eq, Bool.not_eq_true] at hok
  split at hok
  · cases hok
  · split at hok
    · cases hok
    · split at hok
      · cases hok
      · split at hok
        · cases hok
        · split at hok
          · cases hok
          · rename_i s1 hstore
            refine ⟨s1, storeRosterPolicy_groups _ _ _ _ _ _ _ _ _ hstore, ?_⟩
            cases hok
            rfl

/-- The group document fetched right after `upsert_group`: it always exists,
its id is the group id, a previously absent group gets the supplied owner,
and an existing group keeps its stored owner. -/
theorem fetchGroup_upsertGroup (s : MlsState) (gid : String) (dn : Option String)
    (owner : String) (le : Int) (now : Int) :
    ∃ g2 : GroupInfo, fetchGroup (upsertGroup s gid dn owner le now) gid = some g2 ∧
      g2.group_id = gid ∧
      (fetchGroup s gid = none → g2.owner_pubkey = owner) ∧
      (∀ g, fetchGroup s gid = some g → g2.owner_pubkey = g.owner_pubkey) := by
  unfold upsertGroup
  cases hf : fetchGroup s gid with
  | none =>
    simp only [hf]
    refine ⟨_, fetchGroup_putGroup s _, rfl, fun _ => rfl, fun g hg => ?_⟩
    cases hg
  | some g =>
    simp only [hf]
    refine ⟨_, fetchGroup_putGroup s _, rfl, fun h => ?_, fun g' hg' => ?_⟩
    · cases h
    · cases hg'
      rfl

/-- After `add_admins` with the author in the list, the author is an admin of
the fetched group; the stored owner is untouched. -/
theorem addAdmins_self (s : MlsState) (gid pk : String) (now : Int)
    (g : GroupInfo) (hfind : fetchGroup s gid = some g) :
    isAdmin (addAdmins s gid [pk] now) gid pk = true ∧
    (g.owner_pubkey = pk → isOwner (addAdmins s gid [pk] now) gid pk = true) := by
  have hpatch : ∀ adm : List String,
      fetchGroup (patchAdmins s gid adm now) gid =
        some { g with admin_pubkeys := adm, updated_at := now } :=
    fun adm => fetchGroup_patchAdmins s gid adm now g hfind
  unfold addAdmins
  rw [hfind]
  constructor
  · unfold isAdmin
    rw [hpatch]
    by_cases hc : pk ∈ g.admin_pubkeys <;> simp [hc]
  · intro hown
    unfold isOwner
    rw [hpatch]
    simpa using hown

/-- C4 (amended): for every accepted kind-450 event with `op=bootstrap`,
immediately after the apply the author is a member of the group's admin set;
and when the group did not exist before the event, the stored owner equals
the author's pubkey.  (When the group already existed, `upsert_group`
preserves the stored owner, so the unamended claim fails — see the
counterexample of an admin re-bootstrapping another owner's group.) -/
theorem roster_bootstrap_admin_owner (s : MlsState) (ev : NostrEvent) (now : Int)
    (s' : MlsState) (gid : String)
    (hgid : firstTagValue ev.tags "h" = some gid)
    (hop : firstTagValue ev.tags "op" = some "bootstrap")
    (hok : handleRosterPolicy s ev now = .ok s') :
    isAdmin s' gid (hexS ev.pubkey) = true ∧
    (groupExists s gid = false → isOwner s' gid (hexS ev.pubkey) = true) := by
  obtain ⟨s1, hgroups, rfl⟩ := roster_bootstrap_shape s ev now s' gid hgid hop hok
  obtain ⟨g2, hfetch2, hgid2, hownNone, hownSome⟩ :=
    fetchGroup_upsertGroup s1 gid none (hexS ev.pubkey) 0 now
  have hadd := addAdmins_self (upsertGroup s1 gid none (hexS ev.pubkey) 0 now)
    gid (hexS ev.pubkey) now g2 hfetch2
  refine ⟨hadd.1, fun hnex => hadd.2 (hownNone ?_)⟩
  unfold fetchGroup
  rw [hgroups]
  unfold groupExists fetchGroup at hnex
  exact Option.not_isSome_iff_eq_none.mp (by simp [hnex])

/-- Counterexample to C4 as stated: the bootstrap by admin `aa` on the
existing group `G` is accepted, yet the stored owner afterwards is still
`6f`, not the event's author `aa`. -/
theorem roster_bootstrap_counterexample :
    firstTagValue c4Event.tags "op" = some "bootstrap" ∧
    hexS c4Event.pubkey = "aa" ∧
    (handleRosterPolicy c4State c4Event 20).map
      (fun t => (fetchGroup t "G").map (fun g => g.owner_pubkey)) =
      .ok (some "6f") ∧
    ("6f" : String) ≠ "aa" := by
  refine ⟨by decide, by decide, ?_, by decide⟩
  rfl

/-- Witness for C4: on the empty registry the accepted bootstrap makes its
author an admin (and, the group being new, the owner). -/
theorem roster_bootstrap_admin_owner_witness :
    isAdmin ((handleRosterPolicy ⟨[], []⟩ c4WitEvent 10).toOption.getD ⟨[], []⟩)
      "G" (hexS c4WitEvent.pubkey) = true ∧
    isOwner ((handleRosterPolicy ⟨[], []⟩ c4WitEvent 10).toOption.getD ⟨[], []⟩)
      "G" (hexS c4WitEvent.pubkey) = true :=
  have h := roster_bootstrap_admin_owner ⟨[], []⟩ c4WitEvent 10
    ((handleRosterPolicy ⟨[], []⟩ c4WitEvent 10).toOption.getD ⟨[], []⟩) "G"
    (by decide) (by decide) (by rfl)
  ⟨h.1, h.2 (by decide)⟩

/-- Every member of a `Nat` list is below its `max?`. -/
theorem le_max?_of_mem_nat (l : List Nat) (x : Nat) (h : x ∈ l) :
    ∃ m, l.max? = some m ∧ x ≤ m := by
  obtain ⟨m, hm⟩ := Option.isSome_iff_exists.mp (List.isSome_max?_of_mem h)
  exact ⟨m, hm, (List.max?_le_iff (fun _ _ _ => Nat.max_le) hm).mp (le_refl m) x h⟩

/-- A stored roster entry pushes the group's last sequence at least as high
as its own sequence. -/
theorem getLastRosterSequence_ge (s : MlsState) (gid : String)
    (d : RosterPolicyDocument) (hd : d ∈ s.roster) (hdg : d.group_id = gid) :
    ∃ last, getLastRosterSequence s gid = some last ∧ d.sequence ≤ last := by
  unfold getLastRosterSequence
  apply le_max?_of_mem_nat
  exact List.mem_map_of_mem _ (List.mem_filter.mpr ⟨hd, by simp [hdg]⟩)

/-- A successful `handle_roster_policy` run passed the staleness check: the
event's parsed sequence is strictly above every stored sequence of the
group. -/
theorem handleRosterPolicy_ok_fresh (s : MlsState) (ev : NostrEvent) (now : Int)
    (t : MlsState) (gid : String) (v : Nat)
    (hgid : firstTagValue ev.tags "h" = some gid)
    (hseq : (firstTagValue ev.tags "seq").bind parseU64 = some v)
    (hok : handleRosterPolicy s ev now = .ok t) :
    ∀ last, getLastRosterSequence s gid = some last → last < v := by
  intro last hlast
  by_contra hcon
  have hle : v ≤ last := by omega
  have hdec : decide (v ≤ last) = true := decide_eq_true hle
  simp only [handleRosterPolicy, hgid, hseq, hlast, hdec, if_true] at hok
  split at hok
  · cases hok
  · split at hok
    · cases hok
    · split at hok
      · cases hok
      · cases hok

/-- C3: a kind-450 roster event whose `seq` tag parses to a value at most
the group's last stored roster sequence fails with the stale-sequence error
— before the audit-log write and before any admin-set mutation, so no state
change is returned — and once an entry with a given (group, sequence) is
stored, no event carrying the same sequence for that group is ever
accepted. -/
theorem roster_stale_sequence (s : MlsState) (ev : NostrEvent) (now : Int)
    (gid : String) (v : Nat)
    (hgid : firstTagValue ev.tags "h" = some gid)
    (hseq : (firstTagValue ev.tags "seq").bind parseU64 = some v) :
    (∀ op, firstTagValue ev.tags "op" = some op →
      (op = "add" ∨ op = "remove" ∨ op = "promote" ∨ op = "demote" ∨
        op = "bootstrap" ∨ op = "replace") →
      (groupExists s gid = true →
        (isOwner s gid (hexS ev.pubkey) || isAdmin s gid (hexS ev.pubkey)) = true) →
      (groupExists s gid = false → op = "bootstrap") →
      ∀ last, getLastRosterSequence s gid = some last → v ≤ last →
        handleRosterPolicy s ev now = .error .staleSequence) ∧
    (∀ d ∈ s.roster, d.group_id = gid → d.sequence = v →
      ∀ t, handleRosterPolicy s ev now ≠ .ok t) := by
  constructor
  · intro op hop hvalid hauthT hauthF last hlast hle
    have hvb : (op == "add" || op == "remove" || op == "promote" || op == "demote" ||
        op == "bootstrap" || op == "replace") = true := by
      rcases hvalid with h | h | h | h | h | h <;> simp [h]
    have hdec : decide (v ≤ last) = true := decide_eq_true hle
    cases hge : groupExists s gid with
    | false =>
      have hb := hauthF hge
      subst hb
      simp [handleRosterPolicy, hgid, hop, hseq, hlast, hge, hdec]
    | true =>
      have ha := hauthT hge
      simp [handleRosterPolicy, hgid, hop, hseq, hlast, hge, hdec, hvb, ha]
  · intro d hd hdg hds t hok
    obtain ⟨last, hlast, hge⟩ := getLastRosterSequence_ge s gid d hd hdg
    have := handleRosterPolicy_ok_fresh s ev now t gid v hgid hseq hok last hlast
    omega

/-- Witness for C3: replaying sequence 1 on the concrete stored state is
rejected with the stale-sequence error. -/
theorem roster_stale_sequence_witness :
    handleRosterPolicy c4State c3Event 12 = .error .staleSequence :=
  (roster_stale_sequence c4State c3Event 12 "G" 1 (by decide) (by decide)).1
    "add" (by decide) (Or.inl rfl) (fun _ => by decide)
    (fun h => absurd h (by decide)) 1 (by decide) (by decide)

/-- Looking up the key just inserted by `alSet` yields the inserted value. -/
theorem alGet_alSet_self {κ ν : Type} [DecidableEq κ] (m : List (κ × ν)) (k : κ) (v : ν) :
    alGet (alSet m k v) k = some v := by
  simp [alGet, alSet, List.find?_cons]

/-- Pruning the entries of key `k` does not change lookups at another key. -/
theorem find?_filter_ne {κ ν : Type} [DecidableEq κ] (m : List (κ × ν)) (k k' : κ)
    (h : k' ≠ k) :
    (m.filter (fun p => p.1 ≠ k)).find? (fun p => p.1 = k') =
      m.find? (fun p => p.1 = k') := by
  induction m with
  | nil => rfl
  | cons p ps ih =>
    by_cases hp : p.1 = k
    · rw [List.filter_cons_of_neg (by simpa using hp),
        List.find?_cons_of_neg _ (by
          simp only [hp, decide_eq_true_eq]
          exact fun hc => h hc.symm)]
      exact ih
    · rw [List.filter_cons_of_pos (by simpa using hp)]
      by_cases hp' : p.1 = k'
      · rw [List.find?_cons_of_pos _ (by simpa using hp'),
          List.find?_cons_of_pos _ (by simpa using hp')]
      · rw [List.find?_cons_of_neg _ (by simpa using hp'),
          List.find?_cons_of_neg _ (by simpa using hp')]
        exact ih

/-- `alSet` does not change lookups at another key. -/
theorem alGet_alSet_ne {κ ν : Type} [DecidableEq κ] (m : List (κ × ν)) (k k' : κ) (v : ν)
    (h : k' ≠ k) : alGet (alSet m k v) k' = alGet m k' := by
  simp only [alGet, alSet]
  rw [List.find?_cons_of_neg _ (by
    simp only [decide_eq_true_eq]
    exact fun hc => h hc.symm)]
  rw [find?_filter_ne m k k' h]

/-- Lookup after patching the entries of key `k` in place: the patched value
at `k`, unchanged elsewhere. -/
theorem alGet_map_if {κ ν : Type} [DecidableEq κ] (m : List (κ × ν)) (k : κ) (f : ν → ν) :
    alGet (m.map (fun p => if p.1 = k then (p.1, f p.2) else p)) k = (alGet m k).map f ∧
    (∀ k', k' ≠ k →
      alGet (m.map (fun p => if p.1 = k then (p.1, f p.2) else p)) k' = alGet m k') := by
  induction m with
  | nil => exact ⟨rfl, fun _ _ => rfl⟩
  | cons p ps ih =>
    constructor
    · by_cases hp : p.1 = k
      · simp only [List.map_cons, if_pos hp, alGet]
        rw [List.find?_cons_of_pos _ (by simpa using hp),
          List.find?_cons_of_pos _ (by simpa using hp)]
        rfl
      · simp only [List.map_cons, if_neg hp, alGet]
        rw [List.find?_cons_of_neg _ (by simpa using hp),
          List.find?_cons_of_neg _ (by simpa using hp)]
        exact ih.1
    · intro k' hk'
      by_cases hp : p.1 = k
      · simp only [List.map_cons, if_pos hp, alGet]
        rw [List.find?_cons_of_neg _ (by
            simp only [decide_eq_true_eq]
            exact fun hc => hk' (hc.symm.trans hp)),
          List.find?_cons_of_neg _ (by
            simp only [decide_eq_true_eq]
            exact fun hc => hk' (hc.symm.trans hp))]
        exact ih.2 k' hk'
      · by_cases hp' : p.1 = k'
        · simp only [List.map_cons, if_neg hp, alGet]
          rw [List.find?_cons_of_pos _ (by simpa using hp'),
            List.find?_cons_of_pos _ (by simpa using hp')]
        · simp only [List.map_cons, if_neg hp, alGet]
          rw [List.find?_cons_of_neg _ (by simpa using hp'),
            List.find?_cons_of_neg _ (by simpa using hp')]
          exact ih.2 k' hk'

/-- Lookup after `setVersionState` at the patched key. -/
theorem alGet_setVersionState_self (vs : List ((String × String) × SecretVersionRecord))
    (key : String × String) (st : SecretState) :
    alGet (setVersionState vs key st) key =
      (alGet vs key).map (fun r => { r with state := st }) := by
  unfold setVersionState
  exact (alGet_map_if vs key (fun r => { r with state := st })).1

/-- Lookup after `setVersionState` at another key. -/
theorem alGet_setVersionState_ne (vs : List ((String × String) × SecretVersionRecord))
    (key : String × String) (st : SecretState) (k' : String × String) (h : k' ≠ key) :
    alGet (setVersionState vs key st) k' = alGet vs k' := by
  unfold setVersionState
  exact (alGet_map_if vs key (fun r => { r with state := st })).2 k' h

/-- The pointer discipline holds in every reachable rotation-store state. -/
theorem krCurrentInv_of_reachable (s : KrState) (h : KrReachable s) : KrCurrentInv s := by
  induction h with
  | init =>
    intro c ver rec hrec _
    simp [krInit, alGet] at hrec
  | prepare s cid vid sh mkr nb gd rid rr qr _ ih =>
    intro c ver rec hrec hcur
    simp only [prepareRotation] at hrec ⊢
    by_cases hk : ((c, ver) : String × String) = (cid, vid)
    · rw [hk, alGet_alSet_self] at hrec
      cases hrec
      simp at hcur
    · rw [alGet_alSet_ne _ _ _ _ hk] at hrec
      exact ih c ver rec hrec hcur
  | ack s rid _ ih =>
    intro c ver rec hrec hcur
    simp only [recordAck] at hrec ⊢
    exact ih c ver rec hrec hcur
  | promote s cid rid _ ih =>
    intro c ver rec hrec hcur
    simp only [promoteRotation] at hrec ⊢
    cases hrot : alGet s.rotations rid with
    | none =>
      simp only [hrot] at hrec ⊢
      exact ih c ver rec hrec hcur
    | some r =>
      simp only [hrot] at hrec ⊢
      cases hcv : alGet s.current_version cid with
      | some cur =>
        simp only [hcv] at hrec ⊢
        by_cases hk2 : ((c, ver) : String × String) = (cid, r.new_version)
        · injection hk2 with hc hv
          subst hc
          subst hv
          exact alGet_alSet_self _ _ _
        · rw [alGet_setVersionState_ne _ _ _ _ hk2] at hrec
          by_cases hk1 : ((c, ver) : String × String) = (cid, cur)
          · rw [hk1, alGet_setVersionState_self] at hrec
            cases hvx : alGet s.versions (cid, cur) with
            | none => rw [hvx] at hrec; cases hrec
            | some r0 =>
              rw [hvx] at hrec
              cases hrec
              simp at hcur
          · rw [alGet_setVersionState_ne _ _ _ _ hk1] at hrec
            have hptr := ih c ver rec hrec hcur
            by_cases hc : c = cid
            · subst hc
              rw [hcv] at hptr
              injection hptr with h2
              exact absurd (by rw [h2]) hk1
            · rw [alGet_alSet_ne _ _ _ _ hc]
              exact hptr
      | none =>
        simp only [hcv] at hrec ⊢
        by_cases hk2 : ((c, ver) : String × String) = (cid, r.new_version)
        · injection hk2 with hc hv
          subst hc
          subst hv
          exact alGet_alSet_self _ _ _
        · rw [alGet_setVersionState_ne _ _ _ _ hk2] at hrec
          have hptr := ih c ver rec hrec hcur
          by_cases hc : c = cid
          · subst hc
            rw [hcv] at hptr
            cases hptr
          · rw [alGet_alSet_ne _ _ _ _ hc]
            exact hptr

/-- C9 (amended): in every reachable rotation-store state, after a promotion
(i.e. `promote_rotation` for a rotation id that exists) at most one
secret-version record per client holds state `current` — namely the one the
client's current pointer names; and the version that was current before the
promotion ends in state `grace` provided it has a record and differs from the
promoted rotation's new version.  (Promoting the same rotation twice leaves
the previously-current version `current`, not `grace` — see the
counterexample.) -/
theorem promote_rotation_invariant (s : KrState) (hreach : KrReachable s)
    (client_id rotation_id : String) (r : RotationRecord)
    (hrot : alGet s.rotations rotation_id = some r) :
    (∀ c v1 v2 rec1 rec2,
      alGet (promoteRotation s client_id rotation_id).versions (c, v1) = some rec1 →
      rec1.state = SecretState.current →
      alGet (promoteRotation s client_id rotation_id).versions (c, v2) = some rec2 →
      rec2.state = SecretState.current → v1 = v2) ∧
    (∀ c ver rec,
      alGet (promoteRotation s client_id rotation_id).versions (c, ver) = some rec →
      rec.state = SecretState.current →
      alGet (promoteRotation s client_id rotation_id).current_version c = some ver) ∧
    (∀ cur rec0, alGet s.current_version client_id = some cur →
      cur ≠ r.new_version →
      alGet s.versions (client_id, cur) = some rec0 →
      alGet (promoteRotation s client_id rotation_id).versions (client_id, cur) =
        some { rec0 with state := SecretState.grace }) := by
  have hinv := krCurrentInv_of_reachable _ (KrReachable.promote s client_id rotation_id hreach)
  refine ⟨?_, fun c ver rec h1 h2 => hinv c ver rec h1 h2, ?_⟩
  · intro c v1 v2 rec1 rec2 h1 hs1 h2 hs2
    have e1 := hinv c v1 rec1 h1 hs1
    have e2 := hinv c v2 rec2 h2 hs2
    rw [e1] at e2
    injection e2
  · intro cur rec0 hcv hne hrec0
    simp only [promoteRotation, hrot, hcv]
    rw [alGet_setVersionState_ne _ _ _ _ (by simp [Prod.ext_iff, hne]),
      alGet_setVersionState_self, hrec0]
    rfl

/-- Counterexample to C9 as stated: `c9s2` is reachable, `v1` is the version
current for client `A` before the second promotion of `R1`, the second
promotion is a real promotion (the rotation id exists), yet afterwards the
previously-current version `v1` holds state `current`, not `grace`. -/
theorem promote_rotation_counterexample :
    KrReachable c9s2 ∧
    alGet c9s2.current_version "A" = some "v1" ∧
    (alGet c9s2.rotations "R1").isSome = true ∧
    (alGet c9s3.versions ("A", "v1")).map (fun r => r.state) = some SecretState.current ∧
    SecretState.current ≠ SecretState.grace := by
  refine ⟨?_, by rfl, by rfl, by rfl, by decide⟩
  exact KrReachable.promote c9s1 "A" "R1"
    (KrReachable.prepare krInit "A" "v1" "h" "m" 0 none "R1" none 1 KrReachable.init)

/-- Witness for C9: after the first promotion, the current pointer of `A`
names `v1`, the unique current record. -/
theorem promote_rotation_invariant_witness :
    alGet c9s2.current_version "A" = some "v1" :=
  (promote_rotation_invariant c9s1
    (KrReachable.prepare krInit "A" "v1" "h" "m" 0 none "R1" none 1 KrReachable.init)
    "A" "R1" ⟨"R1", "A", "v1", none, 0, none, 1, 0, RotationOutcome.none⟩ (by rfl)).2.1
    "A" "v1" ⟨"A", "v1", "h", "m", 0, none, SecretState.current, none, none⟩
    (by rfl) (by rfl)

/-- `be32` is injective below `2^32` (above, `(n as u32)` truncates). -/
theorem be32_inj (m n : Nat) (hm : m < 2 ^ 32) (hn : n < 2 ^ 32)
    (h : be32 m = be32 n) : m = n := by
  simp only [be32, List.cons.injEq, and_true] at h
  omega

/-- C8 (amended): the canonical MAC input is the length-prefixed
concatenation `be32(|c|) ++ c ++ be32(|v|) ++ v ++ be32(|s|) ++ s` of the
UTF-8 byte strings; for a fixed key and MAC primitive the `secret_hash` is
deterministic; and any two distinct triples whose components are shorter
than `2^32` bytes produce distinct canonical inputs.  (The length prefix is
`(len as u32).to_be_bytes()`, so at byte lengths ≥ 2^32 the prefix wraps and
collisions exist — see the counterexample.) -/
theorem canonical_input_spec (c1 v1 s1 c2 v2 s2 : List Nat)
    (hc1 : c1.length < 2 ^ 32) (hv1 : v1.length < 2 ^ 32) (hs1 : s1.length < 2 ^ 32)
    (hc2 : c2.length < 2 ^ 32) (hv2 : v2.length < 2 ^ 32) (hs2 : s2.length < 2 ^ 32) :
    canonicalInput c1 v1 s1 =
      be32 c1.length ++ c1 ++ be32 v1.length ++ v1 ++ be32 s1.length ++ s1 ∧
    (∀ mac key, c1 = c2 → v1 = v2 → s1 = s2 →
      secretHash mac key c1 v1 s1 = secretHash mac key c2 v2 s2) ∧
    (canonicalInput c1 v1 s1 = canonicalInput c2 v2 s2 →
      c1 = c2 ∧ v1 = v2 ∧ s1 = s2) := by
  refine ⟨rfl, ?_, ?_⟩
  · intro mac key h1 h2 h3
    rw [h1, h2, h3]
  · intro h
    unfold canonicalInput at h
    simp only [List.append_assoc] at h
    obtain ⟨hb1, h⟩ := List.append_inj h (by rfl)
    have hlc : c1.length = c2.length := be32_inj _ _ hc1 hc2 hb1
    obtain ⟨hceq, h⟩ := List.append_inj h hlc
    obtain ⟨hb2, h⟩ := List.append_inj h (by rfl)
    have hlv : v1.length = v2.length := be32_inj _ _ hv1 hv2 hb2
    obtain ⟨hveq, h⟩ := List.append_inj h hlv
    obtain ⟨hb3, hseq⟩ := List.append_inj h (by rfl)
    exact ⟨hceq, hveq, hseq⟩

/-- Counterexample to C8 as stated: the triples `(0^(2^32), "", "")` and
`("", 0^(2^32), "")` are distinct but share the canonical input
`0^(2^32 + 12)`, because `be32 (2^32) = be32 0 = [0,0,0,0]`. -/
theorem canonical_input_counterexample :
    canonicalInput (List.replicate (2 ^ 32) 0) [] [] =
      canonicalInput [] (List.replicate (2 ^ 32) 0) [] ∧
    ([] : List Nat) ≠ List.replicate (2 ^ 32) (0 : Nat) := by
  constructor
  · have hb : be32 (2 ^ 32) = List.replicate 4 0 := by
      simp only [be32]
      norm_num
      rfl
    have hb0' : be32 (List.replicate (2 ^ 32) (0 : Nat)).length = List.replicate 4 0 := by
      rw [List.length_replicate]
      exact hb
    have hnil : be32 (List.length ([] : List Nat)) = List.replicate 4 0 := rfl
    unfold canonicalInput
    rw [hb0', hnil]
    simp only [List.append_nil, List.append_assoc, ← List.replicate_add]
    norm_num
  · intro h
    have hlen := congrArg List.length h
    rw [List.length_nil, List.length_replicate] at hlen
    exact absurd hlen (by norm_num)

/-- Witness for C8: at a concrete pair of short distinct triples the
canonical inputs differ. -/
theorem canonical_input_spec_witness :
    canonicalInput [1] [2] [3] =
      be32 1 ++ [1] ++ be32 1 ++ [2] ++ be32 1 ++ [3] ∧
    canonicalInput [1] [2] [3] ≠ canonicalInput [1] [2] [4] :=
  have h := canonical_input_spec [1] [2] [3] [1] [2] [4]
    (by norm_num) (by norm_num) (by norm_num) (by norm_num) (by norm_num) (by norm_num)
  ⟨h.1, fun he => by
    have h34 := (h.2.2 he).2.2
    simp at h34⟩

/-- C6 (amended): kind-443 ingest persists an event only if its trimmed
content is a non-empty string of ASCII hex digits (either case,
`is_ascii_hexdigit`) of even length; when the content check fails and the
earlier owner/expiry checks pass, the event is rejected as invalid content
and nothing is stored.  (The check accepts uppercase digits, so "lowercase
hex" in the original claim is too strong — see the counterexample.) -/
theorem handle_keypackage_content_gate (cfg : GatewayConfig)
    (store : List KeyPackageDoc) (ev : NostrEvent) (now : Int)
    (howner : ∀ o, firstTagValue ev.tags "p" = some o → o = hexS ev.pubkey)
    (hexp : ∀ e, (firstTagValue ev.tags "exp").bind parseI64 = some e → now < e) :
    (∀ t, handleKeypackage cfg store ev now = .ok t →
      keypackageContentIsHex (rustTrim ev.content.data) = true) ∧
    (keypackageContentIsHex (rustTrim ev.content.data) = false →
      handleKeypackage cfg store ev now = .error .invalidContent) := by
  constructor
  · intro t hok
    by_cases hgate : keypackageContentIsHex (rustTrim ev.content.data) = true
    · exact hgate
    · exfalso
      have hg : keypackageContentIsHex (rustTrim ev.content.data) = false :=
        Bool.eq_false_iff.mpr hgate
      unfold handleKeypackage at hok
      simp only [hg, Bool.not_false, if_true] at hok
      split at hok
      · cases hok
      · split at hok
        · cases hok
        · cases hok
  · intro hgate
    have hown : (match firstTagValue ev.tags "p" with
        | some owner => if owner ≠ hexS ev.pubkey then
            (.error .ownerMismatch : Except GatewayErr Unit) else .ok ()
        | none => .ok ()) = .ok () := by
      cases hp : firstTagValue ev.tags "p" with
      | none => rfl
      | some o => simp [howner o hp]
    have hexpc : (match (firstTagValue ev.tags "exp").bind parseI64 with
        | some exp_timestamp => if exp_timestamp ≤ now then
            (.error .keypackageExpired : Except GatewayErr Unit) else .ok ()
        | none => .ok ()) = .ok () := by
      cases he : (firstTagValue ev.tags "exp").bind parseI64 with
      | none => rfl
      | some e =>
        have := hexp e he
        simp
        omega
    unfold handleKeypackage
    simp only [hown, hexpc, hgate, Bool.not_false, if_true]

/-- Counterexample to C6 as stated: content `"AB"` contains no
lowercase-hex-only characters, yet the event is accepted and persisted
(`is_ascii_hexdigit` admits uppercase). -/
theorem handle_keypackage_content_counterexample :
    handleKeypackage c6Config [] c6Event 100 =
      .ok [⟨"id1", "ab", "AB", "cs", ["ext"], ["wss://r"], 20, 604900⟩] ∧
    (rustTrim c6Event.content.data).all spec_lowercase_hex = false := by
  exact ⟨by rfl, by decide⟩

/-- Witness for C6: odd-length content is rejected as invalid content. -/
theorem handle_keypackage_content_gate_witness :
    handleKeypackage c6Config [] c6WitEvent 100 = .error .invalidContent :=
  (handle_keypackage_content_gate c6Config [] c6WitEvent 100
    (fun o h => (Option.some.inj h).symm) (fun e h => nomatch h)).2 (by decide)

/-- Two filters commute. -/
theorem filter_swap {α : Type} (l : List α) (p q : α → Bool) :
    (l.filter p).filter q = (l.filter q).filter p := by
  rw [List.filter_filter, List.filter_filter]
  exact List.filter_congr (fun a _ => by rw [Bool.and_comm])

/-- `count_user_keypackages` as a two-stage filter: owner first, then
non-expired. -/
theorem countUser_eq_two_filters (l : List KeyPackageDoc) (o : String) (now : Int) :
    countUserKeypackages l o now =
      ((l.filter (fun d => d.owner_pubkey = o)).filter
        (fun d => now < d.expires_at)).length := by
  unfold countUserKeypackages
  rw [List.filter_filter]
  congr 1
  exact List.filter_congr (fun a _ => by rw [Bool.and_comm])

/-- The expired ids of one owner as a two-stage filter: owner first, then
expired. -/
theorem expiredIdsOf_eq_two_filters (l : List KeyPackageDoc) (now : Int) (o : String) :
    expiredIdsOf l now o =
      (((l.filter (fun d => d.owner_pubkey = o)).filter
        (fun d => d.expires_at ≤ now)).map (fun d => d.event_id)) := by
  unfold expiredIdsOf expiredDocs
  rw [filter_swap]

/-- Deleting the first `k` keys of a duplicate-free key list from the list
itself drops exactly its first `k` elements. -/
theorem filter_not_mem_take {α β : Type} [BEq β] [LawfulBEq β] (f : α → β) :
    ∀ (X : List α) (k : Nat), (X.map f).Nodup →
    X.filter (fun d => !(((X.map f).take k).contains (f d))) = X.drop k := by
  intro X
  induction X with
  | nil => intro k _; simp
  | cons x xs ih =>
    intro k hn
    simp only [List.map_cons, List.nodup_cons] at hn
    cases k with
    | zero =>
      simp only [List.take_zero, List.drop_zero]
      apply List.filter_eq_self.mpr
      intro a _
      simp [List.contains]
    | succ k =>
      simp only [List.map_cons, List.take_succ_cons, List.drop_succ_cons]
      rw [List.filter_cons_of_neg (by simp)]
      rw [List.filter_congr (q := fun d => !(((xs.map f).take k).contains (f d)))
        (fun a ha => by
          have hne : f a ≠ f x := by
            intro he
            exact hn.1 (he ▸ List.mem_map_of_mem f ha)
          simp only [List.contains_cons]
          rw [show (f a == f x) = false from beq_eq_false_iff_ne.mpr hne]
          simp)]
      exact ih k hn.2

/-- Effect of one owner's pass of the expired sweep on the live store
`cur` (a sublist of the original store `s` with duplicate-free ids): it only
deletes that owner's expired documents; when the owner's documents in `cur`
are still untouched, the owner's valid count is preserved and the owner's
expired documents after the pass are none (valid count above expired count)
or exactly one (otherwise). -/
theorem cleanupOwner_step (s : List KeyPackageDoc) (now : Int)
    (hn : (s.map (fun d => d.event_id)).Nodup)
    (cur : List KeyPackageDoc) (hsub : cur.Sublist s) (o : String) (cnt : Nat) :
    ((cleanupOwner s now o (cnt, cur)).2).Sublist cur ∧
    (∀ o', o' ≠ o →
      ((cleanupOwner s now o (cnt, cur)).2).filter (fun d => d.owner_pubkey = o') =
        cur.filter (fun d => d.owner_pubkey = o')) ∧
    (cur.filter (fun d => d.owner_pubkey = o) = s.filter (fun d => d.owner_pubkey = o) →
      countUserKeypackages (cleanupOwner s now o (cnt, cur)).2 o now =
        countUserKeypackages s o now ∧
      ((expiredIdsOf s now o).length < countUserKeypackages s o now →
        expiredIdsOf (cleanupOwner s now o (cnt, cur)).2 now o = []) ∧
      (1 ≤ (expiredIdsOf s now o).length →
        countUserKeypackages s o now ≤ (expiredIdsOf s now o).length →
        (expiredIdsOf (cleanupOwner s now o (cnt, cur)).2 now o).length = 1)) := by
  have hnew : (cleanupOwner s now o (cnt, cur)).2 =
      cur.filter (fun d => !(((expiredIdsOf s now o).take
        (if (expiredIdsOf s now o).length < countUserKeypackages cur o now
         then (expiredIdsOf s now o).length
         else (expiredIdsOf s now o).length - 1)).contains d.event_id)) := rfl
  set k := if (expiredIdsOf s now o).length < countUserKeypackages cur o now
    then (expiredIdsOf s now o).length else (expiredIdsOf s now o).length - 1 with hk
  -- any id among the deleted ones belongs to an expired document of owner `o`
  have hmem_td : ∀ x ∈ s, ((expiredIdsOf s now o).take k).contains x.event_id = true →
      x.owner_pubkey = o ∧ x.expires_at ≤ now := by
    intro x hx hc
    have hidmem : x.event_id ∈ (expiredIdsOf s now o).take k := by
      simpa using hc
    have hidfull : x.event_id ∈ expiredIdsOf s now o := List.mem_of_mem_take hidmem
    rw [expiredIdsOf_eq_two_filters] at hidfull
    obtain ⟨y, hy, hyid⟩ := List.mem_map.mp hidfull
    have hy2 := List.mem_filter.mp hy
    have hy3 := List.mem_filter.mp hy2.1
    have hxy : x = y := List.inj_on_of_nodup_map hn hx hy3.1 hyid.symm
    refine ⟨?_, ?_⟩
    · rw [hxy]; simpa using hy3.2
    · rw [hxy]; simpa using hy2.2
  refine ⟨?_, ?_, ?_⟩
  · rw [hnew]; exact List.filter_sublist cur
  · intro o' ho'
    rw [hnew, filter_swap]
    apply List.filter_eq_self.mpr
    intro d hd
    have hdm := List.mem_filter.mp hd
    by_contra hdc
    have hc : ((expiredIdsOf s now o).take k).contains d.event_id = true := by
      revert hdc
      cases ((expiredIdsOf s now o).take k).contains d.event_id <;> simp
    have hdo := (hmem_td d (hsub.subset hdm.1) hc).1
    rw [hdo] at hdm
    have : o = o' := by simpa using hdm.2
    exact ho' this.symm
  · intro hco
    have ht : countUserKeypackages cur o now = countUserKeypackages s o now := by
      rw [countUser_eq_two_filters, countUser_eq_two_filters, hco]
    -- the owner's filtered view of the new store
    have howner : ((cleanupOwner s now o (cnt, cur)).2).filter
        (fun d => d.owner_pubkey = o) =
        (s.filter (fun d => d.owner_pubkey = o)).filter
          (fun d => !(((expiredIdsOf s now o).take k).contains d.event_id)) := by
      rw [hnew, filter_swap, hco]
    -- (a) the valid count is preserved
    have hcount : countUserKeypackages (cleanupOwner s now o (cnt, cur)).2 o now =
        countUserKeypackages s o now := by
      rw [countUser_eq_two_filters, howner, filter_swap, countUser_eq_two_filters]
      congr 1
      apply List.filter_eq_self.mpr
      intro d hd
      have hdm := List.mem_filter.mp hd
      have hdm2 := List.mem_filter.mp hdm.1
      by_contra hdc
      have hc : ((expiredIdsOf s now o).take k).contains d.event_id = true := by
        revert hdc
        cases ((expiredIdsOf s now o).take k).contains d.event_id <;> simp
      have hexp := (hmem_td d hdm2.1 hc).2
      have hval : now < d.expires_at := by simpa using hdm.2
      omega
    -- the owner's expired documents after the pass are a `drop`
    have hdrop : expiredIdsOf (cleanupOwner s now o (cnt, cur)).2 now o =
        (((s.filter (fun d => d.owner_pubkey = o)).filter
          (fun d => d.expires_at ≤ now)).drop k).map (fun d => d.event_id) := by
      rw [expiredIdsOf_eq_two_filters, howner, filter_swap]
      congr 1
      have hsubX : ((s.filter (fun d => d.owner_pubkey = o)).filter
          (fun d => d.expires_at ≤ now)).Sublist s :=
        (List.filter_sublist _).trans (List.filter_sublist s)
      have hnodX : (((s.filter (fun d => d.owner_pubkey = o)).filter
          (fun d => d.expires_at ≤ now)).map (fun d => d.event_id)).Nodup :=
        List.Nodup.sublist (hsubX.map (fun d => d.event_id)) hn
      have hres := filter_not_mem_take (fun d : KeyPackageDoc => d.event_id)
        ((s.filter (fun d => d.owner_pubkey = o)).filter
          (fun d => d.expires_at ≤ now)) k hnodX
      rw [← expiredIdsOf_eq_two_filters s now o] at hres
      exact hres
    refine ⟨hcount, ?_, ?_⟩
    · intro hlt
      have hklen : k = (expiredIdsOf s now o).length := by
        rw [hk, if_pos (by rw [ht]; exact hlt)]
      rw [hdrop, hklen, expiredIdsOf_eq_two_filters]
      rw [List.length_map, List.drop_length]
      rfl
    · intro hone hle
      have hklen : k = (expiredIdsOf s now o).length - 1 := by
        rw [hk, if_neg (by rw [ht]; omega)]
      rw [hdrop, hklen]
      rw [List.length_map, List.length_drop]
      have hXlen : ((s.filter (fun d => d.owner_pubkey = o)).filter
          (fun d => d.expires_at ≤ now)).length = (expiredIdsOf s now o).length := by
        rw [expiredIdsOf_eq_two_filters, List.length_map]
      omega

/-- The per-owner outcome of the sweep depends only on the owner's filtered
view of the store. -/
theorem cleanup_post_transfer (l l' : List KeyPackageDoc) (o : String) (now : Int)
    (h : l'.filter (fun d => d.owner_pubkey = o) = l.filter (fun d => d.owner_pubkey = o)) :
    countUserKeypackages l' o now = countUserKeypackages l o now ∧
    expiredIdsOf l' now o = expiredIdsOf l now o := by
  constructor
  · rw [countUser_eq_two_filters, countUser_eq_two_filters, h]
  · rw [expiredIdsOf_eq_two_filters, expiredIdsOf_eq_two_filters, h]

/-- The owner fold of `cleanup_expired_keypackages`: owners outside the list
are untouched, and each listed owner (whose documents are untouched on
entry) ends with its valid count preserved and its expired documents either
all deleted (valid count above expired count) or reduced to exactly one. -/
theorem cleanup_go (s : List KeyPackageDoc) (now : Int)
    (hn : (s.map (fun d => d.event_id)).Nodup) :
    ∀ (os : List String) (cnt : Nat) (cur : List KeyPackageDoc),
    cur.Sublist s → os.Nodup →
    (∀ o ∈ os, cur.filter (fun d => d.owner_pubkey = o) =
      s.filter (fun d => d.owner_pubkey = o)) →
    ((os.foldl (fun acc owner => cleanupOwner s now owner acc) (cnt, cur)).2.Sublist cur ∧
     (∀ o', o' ∉ os →
       (os.foldl (fun acc owner => cleanupOwner s now owner acc) (cnt, cur)).2.filter
         (fun d => d.owner_pubkey = o') = cur.filter (fun d => d.owner_pubkey = o')) ∧
     (∀ o ∈ os,
       countUserKeypackages
         (os.foldl (fun acc owner => cleanupOwner s now owner acc) (cnt, cur)).2 o now =
         countUserKeypackages s o now ∧
       ((expiredIdsOf s now o).length < countUserKeypackages s o now →
         expiredIdsOf
           (os.foldl (fun acc owner => cleanupOwner s now owner acc) (cnt, cur)).2 now o = []) ∧
       (1 ≤ (expiredIdsOf s now o).length →
         countUserKeypackages s o now ≤ (expiredIdsOf s now o).length →
         (expiredIdsOf
           (os.foldl (fun acc owner => cleanupOwner s now owner acc) (cnt, cur)).2
             now o).length = 1))) := by
  intro os
  induction os with
  | nil =>
    intro cnt cur hsub _ _
    exact ⟨List.Sublist.refl cur, fun o' _ => rfl, fun o ho => absurd ho (by simp)⟩
  | cons o os' ih =>
    intro cnt cur hsub hnd hco
    simp only [List.nodup_cons] at hnd
    have hstep := cleanupOwner_step s now hn cur hsub o cnt
    have hpost := hstep.2.2 (hco o (by simp))
    rcases hpair : cleanupOwner s now o (cnt, cur) with ⟨cnt', cur'⟩
    rw [hpair] at hstep hpost
    simp only [List.foldl_cons, hpair]
    have hsub' : cur'.Sublist s := hstep.1.trans hsub
    have hco' : ∀ o'' ∈ os', cur'.filter (fun d => d.owner_pubkey = o'') =
        s.filter (fun d => d.owner_pubkey = o'') := by
      intro o'' ho''
      rw [hstep.2.1 o'' (fun he => hnd.1 (he ▸ ho''))]
      exact hco o'' (List.mem_cons_of_mem o ho'')
    have hih := ih cnt' cur' hsub' hnd.2 hco'
    refine ⟨hih.1.trans hstep.1, ?_, ?_⟩
    · intro o' ho'
      rw [hih.2.1 o' (fun hm => ho' (List.mem_cons_of_mem o hm))]
      exact hstep.2.1 o' (fun he => ho' (he ▸ List.mem_cons_self o os'))
    · intro o'' ho''
      rcases List.mem_cons.mp ho'' with rfl | hmem
      · have hfinal := hih.2.1 o'' hnd.1
        have htr := cleanup_post_transfer cur'
          (os'.foldl (fun acc owner => cleanupOwner s now owner acc) (cnt', cur')).2
          o'' now hfinal
        refine ⟨htr.1.trans hpost.1, ?_, ?_⟩
        · intro hlt
          rw [htr.2]
          exact hpost.2.1 hlt
        · intro h1 h2
          rw [htr.2]
          exact hpost.2.2 h1 h2
      · exact hih.2.2 o'' hmem

/-- C2: for every owner with at least one expired keypackage,
`cleanup_expired_keypackages` preserves the owner's non-expired count,
deletes all of that owner's expired keypackages when
`count_user_keypackages(owner) > expired_count`, and otherwise deletes
`expired_count - 1` of them (exactly one expired record remains);
consequently no owner goes from having at least one stored keypackage before
the sweep to having zero afterwards. -/
theorem cleanup_expired_keypackages_spec (s : List KeyPackageDoc) (now : Int)
    (hn : (s.map (fun d => d.event_id)).Nodup) :
    (∀ o, 1 ≤ (expiredIdsOf s now o).length →
      countUserKeypackages (cleanupExpiredKeypackages s now).2 o now =
        countUserKeypackages s o now ∧
      ((expiredIdsOf s now o).length < countUserKeypackages s o now →
        expiredIdsOf (cleanupExpiredKeypackages s now).2 now o = []) ∧
      (countUserKeypackages s o now ≤ (expiredIdsOf s now o).length →
        (expiredIdsOf (cleanupExpiredKeypackages s now).2 now o).length = 1)) ∧
    (∀ o, s.filter (fun d => d.owner_pubkey = o) ≠ [] →
      (cleanupExpiredKeypackages s now).2.filter (fun d => d.owner_pubkey = o) ≠ []) := by
  have hgo := cleanup_go s now hn (((expiredDocs s now).map (fun d => d.owner_pubkey)).dedup)
    0 s (List.Sublist.refl s) (List.nodup_dedup _) (fun o _ => rfl)
  have hcl : cleanupExpiredKeypackages s now =
      (((expiredDocs s now).map (fun d => d.owner_pubkey)).dedup).foldl
        (fun acc owner => cleanupOwner s now owner acc) (0, s) := rfl
  have hmem_owner : ∀ o, 1 ≤ (expiredIdsOf s now o).length →
      o ∈ ((expiredDocs s now).map (fun d => d.owner_pubkey)).dedup := by
    intro o h1
    rw [List.mem_dedup]
    have hne : (expiredDocs s now).filter (fun d => d.owner_pubkey = o) ≠ [] := by
      intro he
      have h0 : expiredIdsOf s now o = [] := by
        unfold expiredIdsOf
        rw [he]
        rfl
      rw [h0] at h1
      simp at h1
    obtain ⟨d, hd⟩ := List.exists_mem_of_ne_nil _ hne
    have hdm := List.mem_filter.mp hd
    exact List.mem_map.mpr ⟨d, hdm.1, by simpa using hdm.2⟩
  constructor
  · intro o h1
    rw [hcl]
    have hp := hgo.2.2 o (hmem_owner o h1)
    exact ⟨hp.1, hp.2.1, fun hle => hp.2.2 h1 hle⟩
  · intro o hno
    by_cases hexp : 1 ≤ (expiredIdsOf s now o).length
    · have hp := hgo.2.2 o (hmem_owner o hexp)
      by_cases hval : 1 ≤ countUserKeypackages s o now
      · intro he
        have hcnt := hp.1
        rw [countUser_eq_two_filters] at hcnt
        rw [hcl] at he
        rw [he] at hcnt
        simp only [List.filter_nil, List.length_nil] at hcnt
        omega
      · have h1 := hp.2.2 hexp (by omega)
        intro he
        rw [expiredIdsOf_eq_two_filters] at h1
        rw [hcl] at he
        rw [he] at h1
        simp at h1
    · have hnotin : o ∉ ((expiredDocs s now).map (fun d => d.owner_pubkey)).dedup := by
        intro hin
        rw [List.mem_dedup] at hin
        obtain ⟨d, hd, hdo⟩ := List.mem_map.mp hin
        apply hexp
        have hdm : d ∈ (expiredDocs s now).filter (fun x => x.owner_pubkey = o) :=
          List.mem_filter.mpr ⟨hd, by simpa using hdo⟩
        have hmem : d.event_id ∈ expiredIdsOf s now o := List.mem_map_of_mem _ hdm
        have := List.length_pos_of_mem hmem
        omega
      rw [hcl, hgo.2.1 o hnotin]
      exact hno

/-- Witness for C2: on the concrete store, owner `u` (valid count 1 ≤ 2
expired) keeps exactly one expired keypackage, and owner `w` still has
documents after the sweep. -/
theorem cleanup_expired_keypackages_spec_witness :
    (expiredIdsOf (cleanupExpiredKeypackages c2Store 0).2 0 "u").length = 1 ∧
    (cleanupExpiredKeypackages c2Store 0).2.filter
      (fun d => d.owner_pubkey = "w") ≠ [] :=
  have h := cleanup_expired_keypackages_spec c2Store 0 (by decide)
  ⟨(h.1 "u" (by decide)).2.2 (by decide), h.2 "w" (by decide)⟩

/-- Induction along base64's three-byte chunking. -/
theorem b64chunks_induction (motive : List Nat → Prop) (h0 : motive [])
    (h1 : ∀ b1, motive [b1]) (h2 : ∀ b1 b2, motive [b1, b2])
    (h3 : ∀ b1 b2 b3 rest, motive rest → motive (b1 :: b2 :: b3 :: rest)) :
    ∀ bs, motive bs
  | [] => h0
  | [b1] => h1 b1
  | [b1, b2] => h2 b1 b2
  | b1 :: b2 :: b3 :: rest =>
    h3 b1 b2 b3 rest (b64chunks_induction motive h0 h1 h2 h3 rest)

/-- The standard alphabet is well-formed. -/
theorem alOK_std : alOK stdAlphabet := by
  refine ⟨rfl, ?_, by decide⟩
  decide

/-- The URL-safe alphabet is well-formed. -/
theorem alOK_url : alOK urlAlphabet := by
  refine ⟨rfl, ?_, by decide⟩
  decide

/-- A successful `symVal` is a symbol below 64. -/
theorem symVal_lt (al : List Char) (h64 : al.length = 64) (c : Char) (s : Nat)
    (h : symVal al c = some s) : s < 64 := by
  simp only [symVal] at h
  split at h
  · cases h
    omega
  · cases h

/-- Alphabet characters are never `=`. -/
theorem symChar_ne_eq (al : List Char) (hal : alOK al) (n : Nat) (hn : n < 64) :
    symChar al n ≠ '=' := by
  intro he
  have := hal.2.1 ⟨n, hn⟩
  rw [he, hal.2.2] at this
  cases this

/-- `symVal` inverts `symChar` for symbols below 64. -/
theorem symVal_symChar (al : List Char) (hal : alOK al) (n : Nat) (hn : n < 64) :
    symVal al (symChar al n) = some n := hal.2.1 ⟨n, hn⟩

/-- Decoding the two symbols a single byte encodes to recovers the byte. -/
theorem decodePair_enc (al : List Char) (hal : alOK al) (b1 : Nat) (h1 : b1 < 256) :
    decodePair al (symChar al (b1 / 4)) (symChar al (b1 % 4 * 16)) = some [b1] := by
  have hs1 := symVal_symChar al hal (b1 / 4) (by omega)
  have hs2 := symVal_symChar al hal (b1 % 4 * 16) (by omega)
  have hz : b1 % 4 * 16 % 16 = 0 := by omega
  simp only [decodePair, hs1, hs2, Option.bind_eq_bind, Option.some_bind, hz, if_pos]
  simp only [Option.pure_def, Option.some.injEq, List.cons.injEq, and_true]
  omega

/-- Decoding the three symbols two bytes encode to recovers the bytes. -/
theorem decodeTrio_enc (al : List Char) (hal : alOK al) (b1 b2 : Nat)
    (h1 : b1 < 256) (h2 : b2 < 256) :
    decodeTrio al (symChar al (b1 / 4)) (symChar al (b1 % 4 * 16 + b2 / 16))
      (symChar al (b2 % 16 * 4)) = some [b1, b2] := by
  have hs1 := symVal_symChar al hal (b1 / 4) (by omega)
  have hs2 := symVal_symChar al hal (b1 % 4 * 16 + b2 / 16) (by omega)
  have hs3 := symVal_symChar al hal (b2 % 16 * 4) (by omega)
  have hz : b2 % 16 * 4 % 4 = 0 := by omega
  simp only [decodeTrio, hs1, hs2, hs3, Option.bind_eq_bind, Option.some_bind, hz, if_pos]
  simp only [Option.pure_def, Option.some.injEq, List.cons.injEq, and_true]
  refine ⟨by omega, by omega⟩

/-- Decoding the four symbols three bytes encode to recovers the bytes. -/
theorem decodeQuad_enc (al : List Char) (hal : alOK al) (b1 b2 b3 : Nat)
    (h1 : b1 < 256) (h2 : b2 < 256) (h3 : b3 < 256) :
    decodeQuad al (symChar al (b1 / 4)) (symChar al (b1 % 4 * 16 + b2 / 16))
      (symChar al (b2 % 16 * 4 + b3 / 64)) (symChar al (b3 % 64)) =
      some [b1, b2, b3] := by
  have hs1 := symVal_symChar al hal (b1 / 4) (by omega)
  have hs2 := symVal_symChar al hal (b1 % 4 * 16 + b2 / 16) (by omega)
  have hs3 := symVal_symChar al hal (b2 % 16 * 4 + b3 / 64) (by omega)
  have hs4 := symVal_symChar al hal (b3 % 64) (by omega)
  simp only [decodeQuad, hs1, hs2, hs3, hs4, Option.bind_eq_bind, Option.some_bind]
  simp only [Option.pure_def, Option.some.injEq, List.cons.injEq, and_true]
  refine ⟨by omega, by omega, by omega⟩

/-- A nonempty byte string has a nonempty encoding. -/
theorem encode_ne_nil (al : List Char) (pad : Bool) :
    ∀ bs : List Nat, bs ≠ [] → encodeB64 al pad bs ≠ []
  | [], h => absurd rfl h
  | [_], _ => by simp [encodeB64]
  | [_, _], _ => by simp [encodeB64]
  | _ :: _ :: _ :: _, _ => by simp [encodeB64]

/-- Padded decode inverts padded encode. -/
theorem decodePadded_encode (al : List Char) (hal : alOK al) :
    ∀ bs : List Nat, (∀ b ∈ bs, b < 256) →
    decodePadded al (encodeB64 al true bs) = some bs := by
  intro bs
  induction bs using b64chunks_induction with
  | h0 => intro _; rfl
  | h1 b1 =>
    intro hb
    have h1 : b1 < 256 := hb b1 (by simp)
    simp [encodeB64, decodePadded, decodePair_enc al hal b1 h1]
  | h2 b1 b2 =>
    intro hb
    have h1 : b1 < 256 := hb b1 (by simp)
    have h2 : b2 < 256 := hb b2 (by simp)
    have hne : symChar al (b2 % 16 * 4) ≠ '=' := symChar_ne_eq al hal _ (by omega)
    simp [encodeB64, decodePadded, hne, decodeTrio_enc al hal b1 b2 h1 h2]
  | h3 b1 b2 b3 rest ih =>
    intro hb
    have h1 : b1 < 256 := hb b1 (by simp)
    have h2 : b2 < 256 := hb b2 (by simp)
    have h3 : b3 < 256 := hb b3 (by simp)
    have ihh := ih (fun b hb' => hb b (by simp [hb']))
    by_cases hrest : rest = []
    · subst hrest
      have hne : symChar al (b3 % 64) ≠ '=' := symChar_ne_eq al hal _ (by omega)
      simp [encodeB64, decodePadded, hne, decodeQuad_enc al hal b1 b2 b3 h1 h2 h3]
    · obtain ⟨t1, ts, hts⟩ : ∃ t1 ts, encodeB64 al true rest = t1 :: ts := by
        cases he : encodeB64 al true rest with
        | nil => exact absurd he (encode_ne_nil al true rest hrest)
        | cons t1 ts => exact ⟨t1, ts, rfl⟩
      have henc : encodeB64 al true (b1 :: b2 :: b3 :: rest) =
          symChar al (b1 / 4) :: symChar al (b1 % 4 * 16 + b2 / 16) ::
          symChar al (b2 % 16 * 4 + b3 / 64) :: symChar al (b3 % 64) ::
          encodeB64 al true rest := rfl
      rw [henc, hts]
      simp only [decodePadded]
      rw [← hts, decodeQuad_enc al hal b1 b2 b3 h1 h2 h3, ihh]
      rfl

/-- No-padding decode inverts no-padding encode. -/
theorem decodeNoPad_encode (al : List Char) (hal : alOK al) :
    ∀ bs : List Nat, (∀ b ∈ bs, b < 256) →
    decodeNoPad al (encodeB64 al false bs) = some bs := by
  intro bs
  induction bs using b64chunks_induction with
  | h0 => intro _; rfl
  | h1 b1 =>
    intro hb
    have h1 : b1 < 256 := hb b1 (by simp)
    simp [encodeB64, decodeNoPad, decodePair_enc al hal b1 h1]
  | h2 b1 b2 =>
    intro hb
    have h1 : b1 < 256 := hb b1 (by simp)
    have h2 : b2 < 256 := hb b2 (by simp)
    simp [encodeB64, decodeNoPad, decodeTrio_enc al hal b1 b2 h1 h2]
  | h3 b1 b2 b3 rest ih =>
    intro hb
    have h1 : b1 < 256 := hb b1 (by simp)
    have h2 : b2 < 256 := hb b2 (by simp)
    have h3 : b3 < 256 := hb b3 (by simp)
    have ihh := ih (fun b hb' => hb b (by simp [hb']))
    have henc : encodeB64 al false (b1 :: b2 :: b3 :: rest) =
        symChar al (b1 / 4) :: symChar al (b1 % 4 * 16 + b2 / 16) ::
        symChar al (b2 % 16 * 4 + b3 / 64) :: symChar al (b3 % 64) ::
        encodeB64 al false rest := rfl
    by_cases hrest : rest = []
    · subst hrest
      rw [henc]
      simp only [encodeB64, decodeNoPad]
      rw [decodeQuad_enc al hal b1 b2 b3 h1 h2 h3]
      rfl
    · obtain ⟨t1, ts, hts⟩ : ∃ t1 ts, encodeB64 al false rest = t1 :: ts := by
        cases he : encodeB64 al false rest with
        | nil => exact absurd he (encode_ne_nil al false rest hrest)
        | cons t1 ts => exact ⟨t1, ts, rfl⟩
      rw [henc, hts]
      simp only [decodeNoPad]
      rw [← hts, decodeQuad_enc al hal b1 b2 b3 h1 h2 h3, ihh]
      rfl

/-- Induction along base64's four-character chunking. -/
theorem c4chunks_induction (motive : List Char → Prop) (h0 : motive [])
    (h1 : ∀ c1, motive [c1]) (h2 : ∀ c1 c2, motive [c1, c2])
    (h3 : ∀ c1 c2 c3, motive [c1, c2, c3])
    (h4 : ∀ c1 c2 c3 c4 rest, motive rest → motive (c1 :: c2 :: c3 :: c4 :: rest)) :
    ∀ cs, motive cs
  | [] => h0
  | [c1] => h1 c1
  | [c1, c2] => h2 c1 c2
  | [c1, c2, c3] => h3 c1 c2 c3
  | c1 :: c2 :: c3 :: c4 :: rest =>
    h4 c1 c2 c3 c4 rest (c4chunks_induction motive h0 h1 h2 h3 h4 rest)

/-- On byte strings of length divisible by three, padded and unpadded
encodings agree. -/
theorem encode_pad_eq (al : List Char) :
    ∀ bs : List Nat, bs.length % 3 = 0 → encodeB64 al true bs = encodeB64 al false bs := by
  intro bs
  induction bs using b64chunks_induction with
  | h0 => intro _; rfl
  | h1 b1 => intro h; simp at h
  | h2 b1 b2 => intro h; simp at h
  | h3 b1 b2 b3 rest ih =>
    intro h
    have hl : rest.length % 3 = 0 := by
      simp only [List.length_cons] at h
      omega
    simp only [encodeB64, ih hl]

/-- An unpadded encoding of a byte string whose length is not divisible by
three has length not divisible by four. -/
theorem encode_false_length (al : List Char) :
    ∀ bs : List Nat, bs.length % 3 ≠ 0 → (encodeB64 al false bs).length % 4 ≠ 0 := by
  intro bs
  induction bs using b64chunks_induction with
  | h0 => intro h; simp at h
  | h1 b1 => intro _; simp [encodeB64]
  | h2 b1 b2 => intro _; simp [encodeB64]
  | h3 b1 b2 b3 rest ih =>
    intro h
    have hl : rest.length % 3 ≠ 0 := by
      simp only [List.length_cons] at h
      omega
    have := ih hl
    simp only [encodeB64, List.length_cons]
    omega

/-- Padded decoding succeeds only on lengths divisible by four. -/
theorem decodePadded_some_length (al : List Char) :
    ∀ cs bs2, decodePadded al cs = some bs2 → cs.length % 4 = 0 := by
  intro cs
  induction cs using c4chunks_induction with
  | h0 => intro _ _; rfl
  | h1 c1 =>
    intro bs2 h
    have e : decodePadded al [c1] = none := rfl
    rw [e] at h
    cases h
  | h2 c1 c2 =>
    intro bs2 h
    have e : decodePadded al [c1, c2] = none := rfl
    rw [e] at h
    cases h
  | h3 c1 c2 c3 =>
    intro bs2 h
    have e : decodePadded al [c1, c2, c3] = none := rfl
    rw [e] at h
    cases h
  | h4 c1 c2 c3 c4 rest ih =>
    intro bs2 h
    cases hrest : rest with
    | nil => simp
    | cons t ts =>
      subst hrest
      simp only [decodePadded] at h
      cases hq : decodeQuad al c1 c2 c3 c4 with
      | none => rw [hq] at h; cases h
      | some v =>
        rw [hq] at h
        cases hr : decodePadded al (t :: ts) with
        | none => rw [hr] at h; cases h
        | some w =>
          have := ih _ hr
          simp only [List.length_cons] at this ⊢
          omega

/-- Padded decoding fails on lengths not divisible by four. -/
theorem decodePadded_none_of_len (al : List Char) (cs : List Char)
    (h : cs.length % 4 ≠ 0) : decodePadded al cs = none := by
  cases hd : decodePadded al cs with
  | none => rfl
  | some b => exact absurd (decodePadded_some_length al cs b hd) h

/-- A pair with an out-of-alphabet character fails to decode. -/
theorem decodePair_bad (al : List Char) (c1 c2 : Char)
    (h : symVal al c1 = none ∨ symVal al c2 = none) : decodePair al c1 c2 = none := by
  rcases h with h | h
  · simp [decodePair, h]
  · cases h1 : symVal al c1 <;> simp [decodePair, h1, h]

/-- A trio with an out-of-alphabet character fails to decode. -/
theorem decodeTrio_bad (al : List Char) (c1 c2 c3 : Char)
    (h : symVal al c1 = none ∨ symVal al c2 = none ∨ symVal al c3 = none) :
    decodeTrio al c1 c2 c3 = none := by
  rcases h with h | h | h
  · simp [decodeTrio, h]
  · cases h1 : symVal al c1 <;> simp [decodeTrio, h1, h]
  · cases h1 : symVal al c1 <;> cases h2 : symVal al c2 <;> simp [decodeTrio, h1, h2, h]

/-- A quad with an out-of-alphabet character fails to decode. -/
theorem decodeQuad_bad (al : List Char) (c1 c2 c3 c4 : Char)
    (h : symVal al c1 = none ∨ symVal al c2 = none ∨ symVal al c3 = none ∨
      symVal al c4 = none) : decodeQuad al c1 c2 c3 c4 = none := by
  rcases h with h | h | h | h
  · simp [decodeQuad, h]
  · cases h1 : symVal al c1 <;> simp [decodeQuad, h1, h]
  · cases h1 : symVal al c1 <;> cases h2 : symVal al c2 <;> simp [decodeQuad, h1, h2, h]
  · cases h1 : symVal al c1 <;> cases h2 : symVal al c2 <;> cases h3 : symVal al c3 <;>
      simp [decodeQuad, h1, h2, h3, h]

/-- No-padding decoding fails whenever an out-of-alphabet character occurs. -/
theorem decodeNoPad_mem_bad (al : List Char) (c : Char) (hc : symVal al c = none) :
    ∀ cs : List Char, c ∈ cs → decodeNoPad al cs = none := by
  intro cs
  induction cs using c4chunks_induction with
  | h0 => intro h; cases h
  | h1 c1 => intro _; rfl
  | h2 c1 c2 =>
    intro hm
    simp only [List.mem_cons, List.not_mem_nil, or_false] at hm
    rcases hm with rfl | rfl
    · exact decodePair_bad al c c2 (Or.inl hc)
    · exact decodePair_bad al c1 c (Or.inr hc)
  | h3 c1 c2 c3 =>
    intro hm
    simp only [List.mem_cons, List.not_mem_nil, or_false] at hm
    rcases hm with rfl | rfl | rfl
    · exact decodeTrio_bad al c c2 c3 (Or.inl hc)
    · exact decodeTrio_bad al c1 c c3 (Or.inr (Or.inl hc))
    · exact decodeTrio_bad al c1 c2 c (Or.inr (Or.inr hc))
  | h4 c1 c2 c3 c4 rest ih =>
    intro hm
    simp only [List.mem_cons] at hm
    rcases hm with rfl | rfl | rfl | rfl | hm
    · simp [decodeNoPad, decodeQuad_bad al c c2 c3 c4 (Or.inl hc)]
    · simp [decodeNoPad, decodeQuad_bad al c1 c c3 c4 (Or.inr (Or.inl hc))]
    · simp [decodeNoPad, decodeQuad_bad al c1 c2 c c4 (Or.inr (Or.inr (Or.inl hc)))]
    · simp [decodeNoPad, decodeQuad_bad al c1 c2 c3 c (Or.inr (Or.inr (Or.inr hc)))]
    · cases hq : decodeQuad al c1 c2 c3 c4 with
      | none => simp [decodeNoPad, hq]
      | some v => simp [decodeNoPad, hq, ih hm]

/-- Padded decoding fails whenever an out-of-alphabet character other than
`=` occurs. -/
theorem decodePadded_mem_bad (al : List Char) (c : Char) (hc : symVal al c = none)
    (hne : c ≠ '=') : ∀ cs : List Char, c ∈ cs → decodePadded al cs = none := by
  intro cs
  induction cs using c4chunks_induction with
  | h0 => intro h; cases h
  | h1 c1 => intro _; rfl
  | h2 c1 c2 => intro _; rfl
  | h3 c1 c2 c3 => intro _; rfl
  | h4 c1 c2 c3 c4 rest ih =>
    intro hm
    simp only [List.mem_cons] at hm
    cases hrest : rest with
    | nil =>
      subst hrest
      simp only [List.not_mem_nil, or_false] at hm
      simp only [decodePadded]
      rcases hm with rfl | rfl | rfl | rfl
      · by_cases h4e : c4 = '='
        · by_cases h3e : c3 = '=' <;>
            simp [h4e, h3e, decodePair_bad al c c2 (Or.inl hc),
              decodeTrio_bad al c c2 c3 (Or.inl hc)]
        · simp [h4e, decodeQuad_bad al c c2 c3 c4 (Or.inl hc)]
      · by_cases h4e : c4 = '='
        · by_cases h3e : c3 = '=' <;>
            simp [h4e, h3e, decodePair_bad al c1 c (Or.inr hc),
              decodeTrio_bad al c1 c c3 (Or.inr (Or.inl hc))]
        · simp [h4e, decodeQuad_bad al c1 c c3 c4 (Or.inr (Or.inl hc))]
      · by_cases h4e : c4 = '=' <;>
          simp [h4e, hne, decodeTrio_bad al c1 c2 c (Or.inr (Or.inr hc)),
            decodeQuad_bad al c1 c2 c c4 (Or.inr (Or.inr (Or.inl hc)))]
      · simp [hne, decodeQuad_bad al c1 c2 c3 c (Or.inr (Or.inr (Or.inr hc)))]
    | cons t ts =>
      subst hrest
      simp only [decodePadded]
      rcases hm with rfl | rfl | rfl | rfl | hm
      · simp [decodeQuad_bad al c c2 c3 c4 (Or.inl hc)]
      · simp [decodeQuad_bad al c1 c c3 c4 (Or.inr (Or.inl hc))]
      · simp [decodeQuad_bad al c1 c2 c c4 (Or.inr (Or.inr (Or.inl hc)))]
      · simp [decodeQuad_bad al c1 c2 c3 c (Or.inr (Or.inr (Or.inr hc)))]
      · cases hq : decodeQuad al c1 c2 c3 c4 with
        | none => simp [hq]
        | some v => simp [hq, ih hm]

/-- Symbols of bytes below 256 are below 64. -/
theorem symsOf_lt : ∀ bs : List Nat, (∀ b ∈ bs, b < 256) → ∀ s ∈ symsOf bs, s < 64 := by
  intro bs
  induction bs using b64chunks_induction with
  | h0 => intro _ s hs; cases hs
  | h1 b1 =>
    intro hb s hs
    have h1 : b1 < 256 := hb b1 (by simp)
    simp only [symsOf, List.mem_cons, List.not_mem_nil, or_false] at hs
    rcases hs with rfl | rfl <;> omega
  | h2 b1 b2 =>
    intro hb s hs
    have h1 : b1 < 256 := hb b1 (by simp)
    have h2 : b2 < 256 := hb b2 (by simp)
    simp only [symsOf, List.mem_cons, List.not_mem_nil, or_false] at hs
    rcases hs with rfl | rfl | rfl <;> omega
  | h3 b1 b2 b3 rest ih =>
    intro hb s hs
    have h1 : b1 < 256 := hb b1 (by simp)
    have h2 : b2 < 256 := hb b2 (by simp)
    have h3 : b3 < 256 := hb b3 (by simp)
    simp only [symsOf, List.mem_cons] at hs
    rcases hs with rfl | rfl | rfl | rfl | hmem
    · omega
    · omega
    · omega
    · omega
    · exact ih (fun b hb' => hb b (by simp [hb'])) s hmem

/-- The encoder is the symbol map followed by padding. -/
theorem encode_eq (al : List Char) (pad : Bool) :
    ∀ bs : List Nat, encodeB64 al pad bs =
      (symsOf bs).map (symChar al) ++ (if pad then padChars bs else []) := by
  intro bs
  induction bs using b64chunks_induction with
  | h0 => cases pad <;> simp [encodeB64, symsOf, padChars]
  | h1 b1 => cases pad <;> simp [encodeB64, symsOf, padChars]
  | h2 b1 b2 => cases pad <;> simp [encodeB64, symsOf, padChars]
  | h3 b1 b2 b3 rest ih =>
    have hpc : padChars (b1 :: b2 :: b3 :: rest) = padChars rest := by
      simp only [padChars, List.length_cons]
      simp only [show (rest.length + 1 + 1 + 1) % 3 = rest.length % 3 from by omega]
    simp [encodeB64, symsOf, ih, hpc]

/-- The two alphabets agree below symbol 62. -/
theorem symChar_url_std (n : Nat) (hn : n < 62) :
    symChar urlAlphabet n = symChar stdAlphabet n := by
  have h : ∀ m : Fin 62, symChar urlAlphabet m.val = symChar stdAlphabet m.val := by decide
  exact h ⟨n, hn⟩

/-- A byte string all of whose symbols are below 62 encodes identically in
both alphabets. -/
theorem encode_url_eq_std (pad : Bool) (bs : List Nat)
    (hall : ∀ s ∈ symsOf bs, s < 62) :
    encodeB64 urlAlphabet pad bs = encodeB64 stdAlphabet pad bs := by
  rw [encode_eq, encode_eq]
  congr 1
  exact List.map_congr_left (fun s hs => symChar_url_std s (hall s hs))

/-- URL-alphabet characters for symbols 62 and 63 are outside the standard
alphabet and are not `=`. -/
theorem symVal_std_hi (s : Nat) (h62 : 62 ≤ s) (h64 : s < 64) :
    symVal stdAlphabet (symChar urlAlphabet s) = none ∧
    symChar urlAlphabet s ≠ '=' := by
  have : s = 62 ∨ s = 63 := by omega
  rcases this with rfl | rfl <;> exact ⟨by decide, by decide⟩

/-- Each symbol's character occurs in the encoding. -/
theorem mem_encode_of_mem_symsOf (al : List Char) (pad : Bool) (bs : List Nat)
    (s : Nat) (hs : s ∈ symsOf bs) : symChar al s ∈ encodeB64 al pad bs := by
  rw [encode_eq]
  exact List.mem_append_left _ (List.mem_map_of_mem _ hs)

/-- The fallback decoder inverts standard padded encoding. -/
theorem flexible_enc_std_pad (bs : List Nat) (hb : ∀ b ∈ bs, b < 256) :
    decodeBase64Flexible (encodeB64 stdAlphabet true bs) = some bs := by
  simp only [decodeBase64Flexible, decodePadded_encode stdAlphabet alOK_std bs hb]

/-- The fallback decoder inverts standard no-padding encoding. -/
theorem flexible_enc_std_nopad (bs : List Nat) (hb : ∀ b ∈ bs, b < 256) :
    decodeBase64Flexible (encodeB64 stdAlphabet false bs) = some bs := by
  by_cases h3 : bs.length % 3 = 0
  · rw [← encode_pad_eq stdAlphabet bs h3]
    simp only [decodeBase64Flexible, decodePadded_encode stdAlphabet alOK_std bs hb]
  · have hlen := encode_false_length stdAlphabet bs h3
    simp only [decodeBase64Flexible, decodePadded_none_of_len stdAlphabet _ hlen,
      decodeNoPad_encode stdAlphabet alOK_std bs hb]

/-- The fallback decoder inverts URL-safe padded encoding. -/
theorem flexible_enc_url_pad (bs : List Nat) (hb : ∀ b ∈ bs, b < 256) :
    decodeBase64Flexible (encodeB64 urlAlphabet true bs) = some bs := by
  by_cases hall : ∀ s ∈ symsOf bs, s < 62
  · rw [encode_url_eq_std true bs hall]
    simp only [decodeBase64Flexible, decodePadded_encode stdAlphabet alOK_std bs hb]
  · push_neg at hall
    obtain ⟨s, hs, hge⟩ := hall
    have hlt : s < 64 := symsOf_lt bs hb s hs
    obtain ⟨hnone, hneq⟩ := symVal_std_hi s hge hlt
    have hmem := mem_encode_of_mem_symsOf urlAlphabet true bs s hs
    simp only [decodeBase64Flexible,
      decodePadded_mem_bad stdAlphabet _ hnone hneq _ hmem,
      decodeNoPad_mem_bad stdAlphabet _ hnone _ hmem,
      decodePadded_encode urlAlphabet alOK_url bs hb]

/-- The fallback decoder inverts URL-safe no-padding encoding. -/
theorem flexible_enc_url_nopad (bs : List Nat) (hb : ∀ b ∈ bs, b < 256) :
    decodeBase64Flexible (encodeB64 urlAlphabet false bs) = some bs := by
  by_cases h3 : bs.length % 3 = 0
  · rw [← encode_pad_eq urlAlphabet bs h3]
    by_cases hall : ∀ s ∈ symsOf bs, s < 62
    · rw [encode_url_eq_std true bs hall]
      simp only [decodeBase64Flexible, decodePadded_encode stdAlphabet alOK_std bs hb]
    · push_neg at hall
      obtain ⟨s, hs, hge⟩ := hall
      have hlt : s < 64 := symsOf_lt bs hb s hs
      obtain ⟨hnone, hneq⟩ := symVal_std_hi s hge hlt
      have hmem := mem_encode_of_mem_symsOf urlAlphabet true bs s hs
      simp only [decodeBase64Flexible,
        decodePadded_mem_bad stdAlphabet _ hnone hneq _ hmem,
        decodeNoPad_mem_bad stdAlphabet _ hnone _ hmem,
        decodePadded_encode urlAlphabet alOK_url bs hb]
  · by_cases hall : ∀ s ∈ symsOf bs, s < 62
    · rw [encode_url_eq_std false bs hall]
      have hlen := encode_false_length stdAlphabet bs h3
      simp only [decodeBase64Flexible, decodePadded_none_of_len stdAlphabet _ hlen,
        decodeNoPad_encode stdAlphabet alOK_std bs hb]
    · push_neg at hall
      obtain ⟨s, hs, hge⟩ := hall
      have hlt : s < 64 := symsOf_lt bs hb s hs
      obtain ⟨hnone, hneq⟩ := symVal_std_hi s hge hlt
      have hmem := mem_encode_of_mem_symsOf urlAlphabet false bs s hs
      have hlen := encode_false_length urlAlphabet bs h3
      simp only [decodeBase64Flexible,
        decodePadded_none_of_len stdAlphabet _ hlen,
        decodeNoPad_mem_bad stdAlphabet _ hnone _ hmem,
        decodePadded_none_of_len urlAlphabet _ hlen,
        decodeNoPad_encode urlAlphabet alOK_url bs hb]

/-- `dropWhile` is the identity when no element satisfies the predicate. -/
theorem dropWhile_of_none (p : Char → Bool) :
    ∀ s : List Char, (∀ c ∈ s, p c = false) → s.dropWhile p = s
  | [], _ => rfl
  | c :: rest, h => by
    have hc := h c (by simp)
    simp [List.dropWhile_cons, hc]

/-- `str::trim` is the identity on whitespace-free strings. -/
theorem rustTrim_of_none (s : List Char)
    (h : ∀ c ∈ s, rustIsWhitespace c = false) : rustTrim s = s := by
  unfold rustTrim
  rw [dropWhile_of_none _ s h,
    dropWhile_of_none _ s.reverse (fun c hc => h c (List.mem_reverse.mp hc))]
  exact List.reverse_reverse s

/-- No standard-alphabet character is whitespace. -/
theorem stdAlphabet_not_ws : ∀ c ∈ stdAlphabet, rustIsWhitespace c = false := by decide

/-- No URL-alphabet character is whitespace. -/
theorem urlAlphabet_not_ws : ∀ c ∈ urlAlphabet, rustIsWhitespace c = false := by decide

/-- `symChar` of a symbol below 64 lands in the 64-character table. -/
theorem symChar_mem (al : List Char) (h64 : al.length = 64) (s : Nat)
    (hs : s < 64) : symChar al s ∈ al := by
  have hlt : s < al.length := by omega
  simp only [symChar, List.getD_eq_getElem al '?' hlt]
  exact List.getElem_mem hlt

/-- Padding characters are always `=`. -/
theorem padChars_eq (bs : List Nat) : ∀ c ∈ padChars bs, c = '=' := by
  intro c hc
  simp only [padChars] at hc
  split at hc
  · simp at hc; exact hc
  · split at hc
    · simp at hc; exact hc
    · cases hc

/-- Base64 encodings contain no whitespace. -/
theorem encode_not_ws (al : List Char) (hal : alOK al)
    (alws : ∀ c ∈ al, rustIsWhitespace c = false) (pad : Bool) (bs : List Nat)
    (hb : ∀ b ∈ bs, b < 256) :
    ∀ c ∈ encodeB64 al pad bs, rustIsWhitespace c = false := by
  intro c hc
  rw [encode_eq] at hc
  rcases List.mem_append.mp hc with hm | hm
  · obtain ⟨s, hs, rfl⟩ := List.mem_map.mp hm
    exact alws _ (symChar_mem al hal.1 s (symsOf_lt bs hb s hs))
  · cases pad
    · simp at hm
    · have he := padChars_eq bs c (by simpa using hm)
      rw [he]
      decide

/-- `hexVal` inverts `hexDigitChar` below 16. -/
theorem hexVal_hexDigitChar (n : Nat) (hn : n < 16) :
    hexVal (hexDigitChar n) = some n := by
  have h : ∀ m : Fin 16, hexVal (hexDigitChar m.val) = some m.val := by decide
  exact h ⟨n, hn⟩

/-- Hex digit characters are not whitespace. -/
theorem hexDigitChar_not_ws (n : Nat) (hn : n < 16) :
    rustIsWhitespace (hexDigitChar n) = false := by
  have h : ∀ m : Fin 16, rustIsWhitespace (hexDigitChar m.val) = false := by decide
  exact h ⟨n, hn⟩

/-- Hex encodings contain no whitespace. -/
theorem hexEncode_not_ws : ∀ bs : List Nat, (∀ b ∈ bs, b < 256) →
    ∀ c ∈ hexEncode bs, rustIsWhitespace c = false := by
  intro bs
  induction bs with
  | nil => intro _ c hc; cases hc
  | cons b rest ih =>
    intro hb c hc
    have hbb : b < 256 := hb b (by simp)
    simp only [hexEncode, List.mem_cons] at hc
    rcases hc with rfl | rfl | hc
    · exact hexDigitChar_not_ws _ (by omega)
    · exact hexDigitChar_not_ws _ (by omega)
    · exact ih (fun x hx => hb x (by simp [hx])) c hc

/-- `hex::decode` inverts `hex::encode`. -/
theorem hexDecode_hexEncode : ∀ bs : List Nat, (∀ b ∈ bs, b < 256) →
    hexDecode (hexEncode bs) = some bs := by
  intro bs
  induction bs with
  | nil => intro _; rfl
  | cons b rest ih =>
    intro hb
    have hbb : b < 256 := hb b (by simp)
    have h1 := hexVal_hexDigitChar (b / 16) (by omega)
    have h2 := hexVal_hexDigitChar (b % 16) (by omega)
    have ihh := ih (fun x hx => hb x (by simp [hx]))
    simp only [hexEncode, hexDecode, h1, h2, ihh, Option.bind_eq_bind,
      Option.some_bind, Option.pure_def, Option.some.injEq, List.cons.injEq,
      and_true]
    omega

/-- A nonempty byte string has a nonempty hex encoding. -/
theorem hexEncode_ne_nil : ∀ bs : List Nat, bs ≠ [] → hexEncode bs ≠ []
  | [], h => absurd rfl h
  | _ :: _, _ => by simp [hexEncode]

/-- **C7.** For every nonempty byte sequence (bytes < 256): ingesting its hex
encoding with no `encoding` tag yields declared encoding hex and the canonical
standard-padded base64 for storage; decoding that stored canonical content
with the fallback path and re-emitting hex returns the original hex of the
bytes; ingesting any of the four accepted base64 variants under
`encoding=base64` yields the same canonical storage form; and every empty
input fails to decode. -/
theorem keypackage_encoding_round_trip (bs : List Nat)
    (hb : ∀ b ∈ bs, b < 256) (hne : bs ≠ []) :
    canonicalBase64FromEvent [] (encodeHexS bs) =
      .ok (.hex, encodeCanonicalBase64 bs) ∧
    hexFromFirestoreContent (encodeCanonicalBase64 bs) = .ok (encodeHexS bs) ∧
    (∀ al pad, al = stdAlphabet ∨ al = urlAlphabet →
      canonicalBase64FromEvent [["encoding", "base64"]]
        (String.mk (encodeB64 al pad bs)) =
        .ok (.base64, encodeCanonicalBase64 bs)) ∧
    (∀ enc, decodeKeypackageContent "" enc = .error .emptyKeypackageContent) ∧
    bytesFromFirestoreContent "" = .error .emptyFirestoreContent := by
  have hhexnil := hexEncode_ne_nil bs hne
  have hhexie : (hexEncode bs).isEmpty = false := by
    cases hE : hexEncode bs with
    | nil => exact absurd hE hhexnil
    | cons a t => rfl
  have hhextrim : rustTrim (hexEncode bs) = hexEncode bs :=
    rustTrim_of_none _ (hexEncode_not_ws bs hb)
  refine ⟨?_, ?_, ?_, fun enc => rfl, rfl⟩
  · have h2 : decodeKeypackageContent (encodeHexS bs) .hex = .ok bs := by
      simp only [decodeKeypackageContent, encodeHexS, hhextrim, hhexie,
        Bool.false_eq_true, if_false, decodeHexE, hexDecode_hexEncode bs hb]
    have h1 : canonicalBase64FromEvent [] (encodeHexS bs) =
        decodeKeypackageContent (encodeHexS bs) .hex >>= fun bytes =>
          Except.ok (.hex, encodeCanonicalBase64 bytes) := rfl
    rw [h1, h2]
    rfl
  · have hnil := encode_ne_nil stdAlphabet true bs hne
    have hie : (encodeB64 stdAlphabet true bs).isEmpty = false := by
      cases hE : encodeB64 stdAlphabet true bs with
      | nil => exact absurd hE hnil
      | cons a t => rfl
    have htrim : rustTrim (encodeB64 stdAlphabet true bs) =
        encodeB64 stdAlphabet true bs :=
      rustTrim_of_none _ (encode_not_ws stdAlphabet alOK_std stdAlphabet_not_ws
        true bs hb)
    have h4 : bytesFromFirestoreContent (encodeCanonicalBase64 bs) = .ok bs := by
      simp only [bytesFromFirestoreContent, encodeCanonicalBase64, htrim, hie,
        Bool.false_eq_true, if_false, flexible_enc_std_pad bs hb]
    simp only [hexFromFirestoreContent, h4]
    rfl
  · intro al pad hal
    have halOK : alOK al := by
      rcases hal with rfl | rfl
      exacts [alOK_std, alOK_url]
    have halws : ∀ c ∈ al, rustIsWhitespace c = false := by
      rcases hal with rfl | rfl
      exacts [stdAlphabet_not_ws, urlAlphabet_not_ws]
    have hflex : decodeBase64Flexible (encodeB64 al pad bs) = some bs := by
      rcases hal with rfl | rfl <;> cases pad
      · exact flexible_enc_std_nopad bs hb
      · exact flexible_enc_std_pad bs hb
      · exact flexible_enc_url_nopad bs hb
      · exact flexible_enc_url_pad bs hb
    have hnil := encode_ne_nil al pad bs hne
    have hie : (encodeB64 al pad bs).isEmpty = false := by
      cases hE : encodeB64 al pad bs with
      | nil => exact absurd hE hnil
      | cons a t => rfl
    have htrim : rustTrim (encodeB64 al pad bs) = encodeB64 al pad bs :=
      rustTrim_of_none _ (encode_not_ws al halOK halws pad bs hb)
    have h5 : decodeKeypackageContent (String.mk (encodeB64 al pad bs))
        .base64 = .ok bs := by
      simp only [decodeKeypackageContent, htrim, hie, Bool.false_eq_true,
        if_false, hflex]
    have h6 : canonicalBase64FromEvent [["encoding", "base64"]]
        (String.mk (encodeB64 al pad bs)) =
        decodeKeypackageContent (String.mk (encodeB64 al pad bs)) .base64 >>=
          fun bytes => Except.ok (.base64, encodeCanonicalBase64 bytes) := rfl
    rw [h6, h5]
    rfl

/-- Witness for the round-trip at the bytes of the string `Hello`. -/
theorem keypackage_encoding_round_trip_witness :
    (∀ b ∈ [72, 101, 108, 108, 111], b < 256) ∧
    canonicalBase64FromEvent [] (encodeHexS [72, 101, 108, 108, 111]) =
      .ok (.hex, encodeCanonicalBase64 [72, 101, 108, 108, 111]) :=
  ⟨by decide,
    (keypackage_encoding_round_trip [72, 101, 108, 108, 111] (by decide)
      (by decide)).1⟩
